import Mathlib

/-!
Verification development for the fantasy snake-draft simulator.

The computational core of the repository consists of two pure functions in
`src/App.tsx` (`parsePlayerText` and `generateSnakeDraft`), the per-cell
overall-pick formula of `src/components/DraftBoard.tsx`, and the picked-set
toggle handler `handleTogglePlayerPicked` of `src/App.tsx`.  JavaScript
strings are embedded as `List Char`, JavaScript numbers occurring here
(player ranks, team counts) as `Int`/`Nat` (all arithmetic in the source is
exact small-integer arithmetic), `NaN`-producing parses as `Option`, and the
`Set<number>` of picked ranks as `Finset Int`.
-/

set_option autoImplicit false

/-- The set of characters matched by JavaScript's `\s` (and trimmed by
`String.prototype.trim`): space, tab, LF, VT, FF, CR, NBSP, and the Unicode
space separators, line/paragraph separators and BOM. -/
def jsWhitespace (c : Char) : Bool :=
  c = ' ' || c = '\t' || c = '\n' || c = '\r' || c = '\x0b' || c = '\x0c' ||
  c.toNat = 0xa0 || c.toNat = 0x1680 || (0x2000 ≤ c.toNat && c.toNat ≤ 0x200a) ||
  c.toNat = 0x2028 || c.toNat = 0x2029 || c.toNat = 0x202f || c.toNat = 0x205f ||
  c.toNat = 0x3000 || c.toNat = 0xfeff

/-- JavaScript `String.prototype.trim`: drop leading and trailing whitespace. -/
def jsTrim (l : List Char) : List Char :=
  ((l.dropWhile jsWhitespace).reverse.dropWhile jsWhitespace).reverse

/-- JavaScript `String.prototype.split(sep)` for a single-character
separator (as in `text.trim().split('\n')`): every occurrence of the
separator splits, empty pieces are kept, and the result is always
non-empty (`"".split('\n')` is `[""]`). -/
def splitOnChar (sep : Char) : List Char → List (List Char)
  | [] => [[]]
  | c :: rest =>
    if c = sep then [] :: splitOnChar sep rest
    else
      match splitOnChar sep rest with
      | [] => [[c]]
      | t :: ts => (c :: t) :: ts

/-- Length bound used for the termination of `splitWSRuns`. -/
theorem length_dropWhile_le {α : Type} (p : α → Bool) (l : List α) :
    (l.dropWhile p).length ≤ l.length := by
  induction l with
  | nil => simp [List.dropWhile]
  | cons a l ih =>
    simp only [List.dropWhile]
    cases p a <;> simp <;> omega

/-- Fuelled worker for `splitWSRuns`; the fuel only serves to make the
recursion structural, and `splitWSRuns` always supplies enough of it. -/
def splitWSRunsF : Nat → List Char → List (List Char)
  | 0, l => [l]
  | fuel + 1, l =>
    match l.dropWhile (fun c => !jsWhitespace c) with
    | [] => [l.takeWhile (fun c => !jsWhitespace c)]
    | _ :: rest =>
      l.takeWhile (fun c => !jsWhitespace c) :: splitWSRunsF fuel (rest.dropWhile jsWhitespace)

/-- JavaScript `String.prototype.split(/\s+/)`: split at maximal runs of
whitespace.  A leading (resp. trailing) whitespace run produces a leading
(resp. trailing) empty piece, exactly as the JS regex split does; the
source only ever applies this to trimmed lines, where no empty piece
arises. -/
def splitWSRuns (l : List Char) : List (List Char) :=
  splitWSRunsF (l.length + 1) l

/-- Tokenization of one input line, `line.trim().split(/\s+/)` in the source. -/
def tokenize (line : List Char) : List (List Char) :=
  splitWSRuns (jsTrim line)

/-- JavaScript `Array.prototype.join` with a single-character separator,
as in `parts.slice(1, -1).join(' ')`. -/
def joinWith (sep : Char) : List (List Char) → List Char
  | [] => []
  | [t] => t
  | t :: ts => t ++ sep :: joinWith sep ts

/-- Numeric value of a digit run, most significant digit first. -/
def digitsToNat (ds : List Char) : Nat :=
  ds.foldl (fun a c => a * 10 + (c.toNat - 48)) 0

/-- JavaScript `parseInt(s, 10)`: skip leading whitespace, read an optional
sign, then the maximal leading run of decimal digits; if that run is empty
the result is `NaN` (modelled as `none`), otherwise the signed value of the
digits (trailing garbage is ignored). -/
def parseIntJS (s : List Char) : Option Int :=
  match s.dropWhile jsWhitespace with
  | [] => none
  | c :: r =>
    if c = '-' then
      let ds := r.takeWhile Char.isDigit
      if ds.isEmpty then none else some (-(digitsToNat ds : Int))
    else if c = '+' then
      let ds := r.takeWhile Char.isDigit
      if ds.isEmpty then none else some ((digitsToNat ds : Int))
    else
      let ds := (c :: r).takeWhile Char.isDigit
      if ds.isEmpty then none else some ((digitsToNat ds : Int))

/-- The `Player` interface of `src/types.ts`. -/
structure Player where
  rank : Int
  name : List Char
  position : List Char
deriving DecidableEq, Repr

/-- The error message of `src/App.tsx` line 17 for a line with fewer than
three whitespace-separated tokens, carrying the offending line verbatim. -/
def malformedLineMsg (line : List Char) : List Char :=
  "Malformed line detected. Each line must have rank, name, and position. Problem line: \"".data
    ++ line ++ "\"".data

/-- The error message of `src/App.tsx` line 25 for a line whose rank does
not parse as a number (or whose derived name or position is empty),
carrying the offending line verbatim. -/
def couldNotParseMsg (line : List Char) : List Char :=
  "Could not parse line. Check format. Problem line: \"".data ++ line ++ "\"".data

/-- The combined guard of `src/App.tsx` line 24:
`isNaN(rank) || !name || !position`. -/
def formatCheckFails (rank : Option Int) (name position : List Char) : Bool :=
  rank.isNone || name.isEmpty || position.isEmpty

/-- Lines 20–28 of `src/App.tsx`: given the (≥ 3) tokens of a line, read
the rank from token 0 with `parseInt`, the position from the last token,
the name as the middle tokens joined by single spaces, and reject via the
combined guard of line 24. -/
def checkedBuild (line : List Char) (parts : List (List Char)) : Except (List Char) Player :=
  let rank := parseIntJS (parts.headD [])
  let position := parts.getLastD []
  let name := joinWith ' ' ((parts.drop 1).dropLast)
  if formatCheckFails rank name position then
    .error (couldNotParseMsg line)
  else
    .ok { rank := rank.getD 0, name := name, position := position }

/-- Processing of one non-blank line (lines 14–28 of `src/App.tsx`):
tokenize; fewer than three tokens is a malformed line; otherwise build the
record subject to the line-24 guard. -/
def parseLine (line : List Char) : Except (List Char) Player :=
  let parts := tokenize line
  if parts.length < 3 then .error (malformedLineMsg line)
  else checkedBuild line parts

/-- The parsing loop of `src/App.tsx` lines 11–29: blank lines are
skipped, the first failing line aborts the whole parse with its error and
an empty player list, and otherwise records accumulate in line order. -/
def parseLines : List (List Char) → List Player × Option (List Char)
  | [] => ([], none)
  | line :: rest =>
    if jsTrim line = [] then parseLines rest
    else
      match parseLine line with
      | .error e => ([], some e)
      | .ok p =>
        match parseLines rest with
        | (_, some e) => ([], some e)
        | (ps, none) => (p :: ps, none)

/-- `parsePlayerText` of `src/App.tsx` (lines 7–32): trim the whole text,
split on newlines, and run the line loop.  The result couples the player
list with an optional error message; on error the player list is empty. -/
def parsePlayerText (text : List Char) : List Player × Option (List Char) :=
  parseLines (splitOnChar '\n' (jsTrim text))

/-- Cell access `rounds[r][t]` with out-of-range reads defaulting (the
source only reads in range). -/
def cellGet (rounds : List (List (Option Player))) (r t : Nat) : Option Player :=
  (rounds.getD r []).getD t none

/-- The body of the `players.forEach` of `src/App.tsx` lines 47–57: compute
round, pick-in-round and (direction-dependent) team index for the player
at the given zero-based index and write the player into the grid, guarded
by `rounds[round] && teamIndex < numTeams`. -/
def placePlayer (T : Nat) (rounds : List (List (Option Player))) (index : Nat)
    (p : Player) : List (List (Option Player)) :=
  let round := index / T
  let pickInRound := index % T
  let teamIndex := if round % 2 = 0 then pickInRound else T - 1 - pickInRound
  if round < rounds.length ∧ teamIndex < T then
    rounds.set round ((rounds.getD round []).set teamIndex (some p))
  else
    rounds

/-- `players.forEach((player, index) => ...)`: run `placePlayer` over the
players in order with ascending indices. -/
def placeAll (T : Nat) : List (List (Option Player)) → List Player → Nat →
    List (List (Option Player))
  | rounds, [], _ => rounds
  | rounds, p :: ps, index => placeAll T (placePlayer T rounds index p) ps (index + 1)

/-- Lines 39–57 of `src/App.tsx`: a `numRounds × numTeams` grid initially
all `null`, then filled by the `forEach`. -/
def buildRounds (T numRounds : Nat) (players : List Player) : List (List (Option Player)) :=
  placeAll T (List.replicate numRounds (List.replicate T (none : Option Player))) players 0

/-- Team label `Team ${t + 1}` for the zero-based team index `t`. -/
def teamLabel (t : Nat) : String :=
  "Team " ++ toString (t + 1)

/-- `generateSnakeDraft` of `src/App.tsx` lines 34–69.  The JS object
`board` (string keys in insertion order) is embedded as an association
list in team-index order. -/
def generateSnakeDraft (players : List Player) (numTeams : Int) :
    List (String × List (Option Player)) :=
  if players.length = 0 ∨ numTeams ≤ 0 then []
  else
    let T := numTeams.toNat
    let numRounds := (players.length + T - 1) / T
    let rounds := buildRounds T numRounds players
    (List.range T).map fun t =>
      (teamLabel t, (List.range numRounds).map fun r => cellGet rounds r t)

/-- The display formula of `src/components/DraftBoard.tsx` lines 107–109:
`pickInRound = forward ? teamIndex : numTeams - 1 - teamIndex`;
`overallPick = roundIndex * numTeams + pickInRound + 1`. -/
def overallPick (numTeams roundIndex teamIndex : Nat) : Nat :=
  roundIndex * numTeams +
    (if roundIndex % 2 = 0 then teamIndex else numTeams - 1 - teamIndex) + 1

/-- `handleTogglePlayerPicked` of `src/App.tsx` lines 138–148: delete the
rank if present, insert it otherwise. -/
def handleTogglePlayerPicked (prevPicked : Finset Int) (playerRank : Int) : Finset Int :=
  if playerRank ∈ prevPicked then prevPicked.erase playerRank
  else insert playerRank prevPicked

/-- Fuelled worker for `natToDigits`; the fuel only serves to make the
recursion structural, and `natToDigits` always supplies enough of it. -/
def natToDigitsF : Nat → Nat → List Char
  | 0, _ => []
  | fuel + 1, n =>
    if n < 10 then [Nat.digitChar n]
    else natToDigitsF fuel (n / 10) ++ [Nat.digitChar (n % 10)]

/-- Decimal digits of a natural number, most significant first. -/
def natToDigits (n : Nat) : List Char :=
  natToDigitsF (n + 1) n

/-- JavaScript number-to-string conversion (template literal `${rank}`)
restricted to the exact integers produced by `parseInt`: decimal digits
with a leading `-` for negative values (`String(-0)` is `"0"`, matching
the absence of a negative zero in `Int`). -/
def jsNumToString (n : Int) : List Char :=
  if n < 0 then '-' :: natToDigits n.natAbs else natToDigits n.toNat

/-- Re-serialization of one parsed record as the line
`"{rank} {name} {position}"` with single spaces, as prescribed by the
round-trip property of the specification. -/
def serializeRecord (p : Player) : List Char :=
  jsNumToString p.rank ++ ' ' :: p.name ++ ' ' :: p.position

/-- Re-serialization of a player sequence: one line per record, joined
with newlines. -/
def serializePlayers (ps : List Player) : List Char :=
  joinWith '\n' (ps.map serializeRecord)

/-- The direction-dependent team column receiving the player at a given
zero-based index: the `teamIndex` computation of `src/App.tsx` lines 48–52
(`round = floor(index/T)`, `pickInRound = index mod T`, reversed on odd
rounds), as a standalone function. -/
def teamSlot (T i : Nat) : Nat :=
  if (i / T) % 2 = 0 then i % T else T - 1 - i % T

/-- The zero-based input index whose player lands in the cell at round `r`
and physical team column `t`: `r*T + t` on forward (even) rounds and
`r*T + (T-1-t)` on reverse (odd) rounds. -/
def cellIndex (T r t : Nat) : Nat :=
  r * T + (if r % 2 = 0 then t else T - 1 - t)

/-- A successfully parsed record's shape: the name is a non-empty join of
non-empty whitespace-free tokens, and the position is a non-empty
whitespace-free token.  Every record produced by `parseLine` satisfies
this, and every record satisfying it re-parses from its serialization. -/
def wfPlayer (p : Player) : Prop :=
  (∃ mids, mids ≠ [] ∧ (∀ t ∈ mids, t ≠ [] ∧ ∀ c ∈ t, jsWhitespace c = false) ∧
    p.name = joinWith ' ' mids) ∧
  p.position ≠ [] ∧ (∀ c ∈ p.position, jsWhitespace c = false)

/-! ### List utilities -/

theorem getD_set_self {α : Type} (l : List α) (i : Nat) (a d : α) (h : i < l.length) :
    (l.set i a).getD i d = a := by
  induction l generalizing i with
  | nil => simp at h
  | cons x xs ih =>
    cases i with
    | zero => rfl
    | succ j =>
      simp only [List.set, List.getD, List.get?]
      have := ih j (by simpa using h)
      simpa [List.getD] using this

theorem getD_set_ne {α : Type} (l : List α) (i j : Nat) (a : α) (d : α) (h : i ≠ j) :
    (l.set i a).getD j d = l.getD j d := by
  induction l generalizing i j with
  | nil => rfl
  | cons x xs ih =>
    cases i with
    | zero =>
      cases j with
      | zero => exact absurd rfl h
      | succ k => rfl
    | succ i' =>
      cases j with
      | zero => rfl
      | succ k =>
        simp only [List.set, List.getD, List.get?]
        have := ih i' k (by omega)
        simpa [List.getD] using this

theorem getD_replicate {α : Type} (n : Nat) (x d : α) (i : Nat) (h : i < n) :
    (List.replicate n x).getD i d = x := by
  induction n generalizing i with
  | zero => omega
  | succ m ih =>
    cases i with
    | zero => rfl
    | succ j =>
      simp only [List.replicate, List.getD, List.get?]
      have := ih j (by omega)
      simpa [List.getD] using this

theorem takeWhile_eq_self_of_all {α : Type} (p : α → Bool) (l : List α)
    (h : ∀ c ∈ l, p c = true) : l.takeWhile p = l := by
  induction l with
  | nil => rfl
  | cons a l ih =>
    rw [List.takeWhile_cons, h a (by simp)]
    simp [ih fun c hc => h c (by simp [hc])]

theorem dropWhile_eq_nil_of_all {α : Type} (p : α → Bool) (l : List α)
    (h : ∀ c ∈ l, p c = true) : l.dropWhile p = [] := by
  induction l with
  | nil => rfl
  | cons a l ih =>
    rw [List.dropWhile_cons, h a (by simp)]
    simp [ih fun c hc => h c (by simp [hc])]

theorem takeWhile_append_of_all {α : Type} (p : α → Bool) (l₁ l₂ : List α)
    (h : ∀ c ∈ l₁, p c = true) : (l₁ ++ l₂).takeWhile p = l₁ ++ l₂.takeWhile p := by
  induction l₁ with
  | nil => rfl
  | cons a l ih =>
    rw [List.cons_append, List.takeWhile_cons, h a (by simp)]
    simp [ih fun c hc => h c (by simp [hc])]

theorem dropWhile_append_of_all {α : Type} (p : α → Bool) (l₁ l₂ : List α)
    (h : ∀ c ∈ l₁, p c = true) : (l₁ ++ l₂).dropWhile p = l₂.dropWhile p := by
  induction l₁ with
  | nil => rfl
  | cons a l ih =>
    rw [List.cons_append, List.dropWhile_cons, h a (by simp)]
    simp [ih fun c hc => h c (by simp [hc])]

theorem dropWhile_cons_of_neg {α : Type} (p : α → Bool) (a : α) (l : List α)
    (h : p a = false) : (a :: l).dropWhile p = a :: l := by
  rw [List.dropWhile_cons, h]
  simp

theorem headD_dropWhile_false {α : Type} (p : α → Bool) (l : List α) (d : α)
    (h : l.dropWhile p ≠ []) : p ((l.dropWhile p).headD d) = false := by
  induction l with
  | nil => simp at h
  | cons a l ih =>
    rw [List.dropWhile_cons]
    by_cases hpa : p a = true
    · rw [if_pos hpa]
      exact ih (by rwa [List.dropWhile_cons, if_pos hpa] at h)
    · rw [if_neg hpa]
      simpa using hpa

/-! ### Fuel irrelevance and one-step equations -/

theorem splitWSRunsF_congr : ∀ (f₁ f₂ : Nat) (l : List Char), l.length < f₁ → l.length < f₂ →
    splitWSRunsF f₁ l = splitWSRunsF f₂ l := by
  intro f₁
  induction f₁ with
  | zero => intro f₂ l h₁ _; omega
  | succ f ih =>
    intro f₂ l h₁ h₂
    cases f₂ with
    | zero => omega
    | succ g =>
      simp only [splitWSRunsF]
      cases hd : l.dropWhile (fun c => !jsWhitespace c) with
      | nil => rfl
      | cons c rest =>
        have hle := length_dropWhile_le (fun c => !jsWhitespace c) l
        rw [hd] at hle
        have hle2 := length_dropWhile_le jsWhitespace rest
        simp only [List.length_cons] at hle
        dsimp only
        rw [ih g (rest.dropWhile jsWhitespace) (by omega) (by omega)]

theorem splitWSRuns_eq (l : List Char) :
    splitWSRuns l =
      match l.dropWhile (fun c => !jsWhitespace c) with
      | [] => [l.takeWhile (fun c => !jsWhitespace c)]
      | _ :: rest =>
        l.takeWhile (fun c => !jsWhitespace c) :: splitWSRuns (rest.dropWhile jsWhitespace)
  := by
  show splitWSRunsF (l.length + 1) l = _
  simp only [splitWSRunsF]
  cases hd : l.dropWhile (fun c => !jsWhitespace c) with
  | nil => rfl
  | cons c rest =>
    have hle := length_dropWhile_le (fun c => !jsWhitespace c) l
    rw [hd] at hle
    have hle2 := length_dropWhile_le jsWhitespace rest
    simp only [List.length_cons] at hle
    exact congrArg _ (splitWSRunsF_congr _ _ _ (by omega) (by omega))

theorem natToDigitsF_congr : ∀ (f₁ f₂ n : Nat), n < f₁ → n < f₂ →
    natToDigitsF f₁ n = natToDigitsF f₂ n := by
  intro f₁
  induction f₁ with
  | zero => omega
  | succ f ih =>
    intro f₂ n h₁ h₂
    cases f₂ with
    | zero => omega
    | succ g =>
      simp only [natToDigitsF]
      by_cases h10 : n < 10
      · simp [h10]
      · rw [if_neg h10, if_neg h10, ih g (n / 10) (by omega) (by omega)]

theorem natToDigits_eq (n : Nat) :
    natToDigits n =
      if n < 10 then [Nat.digitChar n]
      else natToDigits (n / 10) ++ [Nat.digitChar (n % 10)] := by
  show natToDigitsF (n + 1) n = _
  simp only [natToDigitsF]
  by_cases h10 : n < 10
  · simp [h10]
  · rw [if_neg h10, if_neg h10,
      natToDigitsF_congr n (n / 10 + 1) (n / 10) (by omega) (by omega)]
    rfl

theorem mem_takeWhile_pred {α : Type} (p : α → Bool) : ∀ (l : List α) (a : α),
    a ∈ l.takeWhile p → p a = true := by
  intro l
  induction l with
  | nil => intro a h; simp [List.takeWhile] at h
  | cons x xs ih =>
    intro a h
    rw [List.takeWhile_cons] at h
    by_cases hx : p x = true
    · rw [if_pos hx] at h
      rcases List.mem_cons.mp h with h | h
      · rwa [h]
      · exact ih a h
    · rw [if_neg hx] at h
      simp at h

theorem all_of_dropWhile_eq_nil {α : Type} (p : α → Bool) : ∀ (l : List α),
    l.dropWhile p = [] → ∀ a ∈ l, p a = true := by
  intro l
  induction l with
  | nil => intro _ a ha; simp at ha
  | cons x xs ih =>
    intro h a ha
    rw [List.dropWhile_cons] at h
    by_cases hx : p x = true
    · rw [if_pos hx] at h
      rcases List.mem_cons.mp ha with rfl | ha
      · exact hx
      · exact ih h a ha
    · rw [if_neg hx] at h
      simp at h

theorem head?_dropWhile_false {α : Type} (p : α → Bool) : ∀ (l : List α) (a : α),
    (l.dropWhile p).head? = some a → p a = false := by
  intro l
  induction l with
  | nil => intro a h; simp [List.dropWhile] at h
  | cons x xs ih =>
    intro a h
    rw [List.dropWhile_cons] at h
    by_cases hx : p x = true
    · rw [if_pos hx] at h
      exact ih a h
    · rw [if_neg hx] at h
      simp only [List.head?_cons, Option.some.injEq] at h
      subst h
      simpa using hx

theorem getLast?_append_right {α : Type} : ∀ (l₁ l₂ : List α), l₂ ≠ [] →
    (l₁ ++ l₂).getLast? = l₂.getLast? := by
  intro l₁
  induction l₁ with
  | nil => intro l₂ _; rfl
  | cons a l₁ ih =>
    intro l₂ h
    rw [List.cons_append]
    cases hx : l₁ ++ l₂ with
    | nil =>
      rcases List.append_eq_nil.mp hx with ⟨_, h2⟩
      exact absurd h2 h
    | cons x xs =>
      rw [List.getLast?_cons_cons, ← hx, ih l₂ h]

theorem mem_of_getLast?_eq {α : Type} : ∀ (l : List α) (b : α),
    l.getLast? = some b → b ∈ l := by
  intro l
  induction l with
  | nil => intro b h; simp at h
  | cons a l ih =>
    intro b h
    cases hl : l with
    | nil => subst hl; simp_all
    | cons x xs =>
      subst hl
      rw [List.getLast?_cons_cons] at h
      exact List.mem_cons_of_mem a (ih b h)

theorem getLast?_dropWhile {α : Type} (p : α → Bool) (l : List α)
    (h : l.dropWhile p ≠ []) : (l.dropWhile p).getLast? = l.getLast? := by
  induction l with
  | nil => simp [List.dropWhile] at h
  | cons x xs ih =>
    rw [List.dropWhile_cons]
    by_cases hx : p x = true
    · rw [List.dropWhile_cons, if_pos hx] at h
      rw [if_pos hx, ih h]
      cases hxs : xs with
      | nil => subst hxs; simp [List.dropWhile] at h
      | cons y ys => rw [List.getLast?_cons_cons]
    · rw [if_neg hx]

/-! ### Properties of `jsTrim` -/

theorem jsTrim_nil : jsTrim [] = [] := rfl

theorem jsTrim_head? (l : List Char) (a : Char) (h : (jsTrim l).head? = some a) :
    jsWhitespace a = false := by
  unfold jsTrim at h
  rw [List.head?_reverse] at h
  rw [getLast?_dropWhile] at h
  · rw [List.getLast?_reverse] at h
    exact head?_dropWhile_false jsWhitespace l a h
  · intro hnil
    rw [hnil] at h
    simp at h

theorem jsTrim_getLast? (l : List Char) (b : Char) (h : (jsTrim l).getLast? = some b) :
    jsWhitespace b = false := by
  unfold jsTrim at h
  rw [List.getLast?_reverse] at h
  exact head?_dropWhile_false jsWhitespace _ b h

theorem jsTrim_eq_self (l : List Char)
    (hh : ∀ a, l.head? = some a → jsWhitespace a = false)
    (hl : ∀ b, l.getLast? = some b → jsWhitespace b = false) : jsTrim l = l := by
  cases l with
  | nil => rfl
  | cons a l' =>
    unfold jsTrim
    rw [dropWhile_cons_of_neg _ _ _ (hh a rfl)]
    have hne : (a :: l') ≠ [] := by simp
    obtain ⟨b, hb⟩ := Option.isSome_iff_exists.mp
      (by rw [List.getLast?_isSome]; exact hne)
    cases hrev : (a :: l').reverse with
    | nil => exact absurd (List.reverse_eq_nil_iff.mp hrev) hne
    | cons x xs =>
      have hx : x = b := by
        have h1 := List.head?_reverse (a :: l')
        rw [hrev] at h1
        simp only [List.head?_cons] at h1
        exact Option.some.inj (h1.trans hb)
      rw [dropWhile_cons_of_neg _ _ _ (by rw [hx]; exact hl b hb), ← hrev,
        List.reverse_reverse]

/-! ### Properties of `splitWSRuns` and `tokenize` -/

theorem exists_prefix_dropWhile {α : Type} (p : α → Bool) : ∀ l : List α,
    ∃ pre, pre ++ l.dropWhile p = l := by
  intro l
  induction l with
  | nil => exact ⟨[], rfl⟩
  | cons x xs ih =>
    by_cases hx : p x = true
    · obtain ⟨pre, hpre⟩ := ih
      exact ⟨x :: pre, by rw [List.dropWhile_cons, if_pos hx, List.cons_append, hpre]⟩
    · exact ⟨[], by rw [List.dropWhile_cons, if_neg hx]; rfl⟩

theorem splitWSRuns_eq_nil_case (l : List Char)
    (h : l.dropWhile (fun c => !jsWhitespace c) = []) :
    splitWSRuns l = [l.takeWhile (fun c => !jsWhitespace c)] := by
  rw [splitWSRuns_eq, h]

theorem splitWSRuns_eq_cons_case (l : List Char) (c : Char) (rest : List Char)
    (h : l.dropWhile (fun c => !jsWhitespace c) = c :: rest) :
    splitWSRuns l =
      l.takeWhile (fun c => !jsWhitespace c) :: splitWSRuns (rest.dropWhile jsWhitespace) := by
  rw [splitWSRuns_eq, h]

theorem splitWSRuns_nil : splitWSRuns [] = [[]] := rfl

theorem splitWSRunsF_wsfree : ∀ (fuel : Nat) (l : List Char), l.length < fuel →
    ∀ t ∈ splitWSRunsF fuel l, ∀ c ∈ t, jsWhitespace c = false := by
  intro fuel
  induction fuel with
  | zero => intro l h; omega
  | succ f ih =>
    intro l hlen t ht c hc
    simp only [splitWSRunsF] at ht
    split at ht
    · rcases List.mem_singleton.mp ht with rfl
      have := mem_takeWhile_pred _ _ c hc
      simpa using this
    · rename_i hd rest heq
      rcases List.mem_cons.mp ht with rfl | ht
      · have := mem_takeWhile_pred _ _ c hc
        simpa using this
      · have h1 := length_dropWhile_le (fun c => !jsWhitespace c) l
        rw [heq] at h1
        have h2 := length_dropWhile_le jsWhitespace rest
        simp only [List.length_cons] at h1
        exact ih (rest.dropWhile jsWhitespace) (by omega) t ht c hc

theorem tokenize_wsfree (line : List Char) :
    ∀ t ∈ tokenize line, ∀ c ∈ t, jsWhitespace c = false :=
  splitWSRunsF_wsfree _ (jsTrim line) (by omega)

theorem splitWSRunsF_ne_nil : ∀ (fuel : Nat) (l : List Char), l.length < fuel → l ≠ [] →
    (∀ a, l.head? = some a → jsWhitespace a = false) →
    (∀ b, l.getLast? = some b → jsWhitespace b = false) →
    ∀ t ∈ splitWSRunsF fuel l, t ≠ [] := by
  intro fuel
  induction fuel with
  | zero => intro l h; omega
  | succ f ih =>
    intro l hlen hne hh hl t ht
    obtain ⟨a, l', rfl⟩ : ∃ a l', l = a :: l' := by
      cases l with
      | nil => exact absurd rfl hne
      | cons a l' => exact ⟨a, l', rfl⟩
    have ha : jsWhitespace a = false := hh a rfl
    have htake : (a :: l').takeWhile (fun c => !jsWhitespace c) =
        a :: l'.takeWhile (fun c => !jsWhitespace c) := by
      rw [List.takeWhile_cons, if_pos (by simp [ha])]
    simp only [splitWSRunsF] at ht
    split at ht
    · rcases List.mem_singleton.mp ht with rfl
      rw [htake]
      simp
    · rename_i hd rest heq
      rcases List.mem_cons.mp ht with rfl | ht
      · rw [htake]
        simp
      · -- `hd :: rest` is the whitespace-led suffix of the line
        have hdws : jsWhitespace hd = true := by
          have h1 : ((a :: l').dropWhile (fun c => !jsWhitespace c)).head? = some hd := by
            rw [heq]; rfl
          have := head?_dropWhile_false (fun c => !jsWhitespace c) (a :: l') hd h1
          simpa using this
        obtain ⟨pre, hpre⟩ := exists_prefix_dropWhile (fun c => !jsWhitespace c) (a :: l')
        rw [heq] at hpre
        have hlast_eq : (a :: l').getLast? = (hd :: rest).getLast? := by
          rw [← hpre, getLast?_append_right _ _ (by simp)]
        -- the rest after dropping the whitespace run is still non-empty
        have hrest_ne : rest.dropWhile jsWhitespace ≠ [] := by
          intro hnil
          have hallws := all_of_dropWhile_eq_nil jsWhitespace rest hnil
          cases hrest : rest with
          | nil =>
            subst hrest
            have : (a :: l').getLast? = some hd := by rw [hlast_eq]; rfl
            rw [hl hd this] at hdws
            exact Bool.false_ne_true hdws
          | cons y ys =>
            subst hrest
            obtain ⟨b, hb⟩ := Option.isSome_iff_exists.mp
              (by rw [List.getLast?_isSome]; simp : ((y :: ys).getLast?).isSome = true)
            have hbl : (a :: l').getLast? = some b := by
              rw [hlast_eq, List.getLast?_cons_cons, hb]
            have hbmem : b ∈ y :: ys := mem_of_getLast?_eq _ b hb
            have h1 := hallws b hbmem
            rw [hl b hbl] at h1
            exact Bool.false_ne_true h1
        have hrest_ne' : rest ≠ [] := by
          intro hnil
          rw [hnil] at hrest_ne
          exact hrest_ne rfl
        have h1 := length_dropWhile_le (fun c => !jsWhitespace c) (a :: l')
        rw [heq] at h1
        have h2 := length_dropWhile_le jsWhitespace rest
        simp only [List.length_cons] at h1 hlen
        refine ih (rest.dropWhile jsWhitespace) (by omega) hrest_ne
          (fun x hx => head?_dropWhile_false jsWhitespace rest x hx)
          (fun b hb => ?_) t ht
        have hb2 : rest.getLast? = some b := by
          rw [← getLast?_dropWhile jsWhitespace rest hrest_ne, hb]
        have hbl : (a :: l').getLast? = some b := by
          rw [hlast_eq]
          cases hrest : rest with
          | nil => exact absurd hrest hrest_ne'
          | cons y ys => rw [List.getLast?_cons_cons, ← hrest, hb2]
        exact hl b hbl

theorem tokenize_ne_nil (line : List Char) (h : jsTrim line ≠ []) :
    ∀ t ∈ tokenize line, t ≠ [] :=
  splitWSRunsF_ne_nil _ (jsTrim line) (by omega) h
    (jsTrim_head? line) (jsTrim_getLast? line)

/-! ### Properties of `joinWith` and `splitOnChar` -/

theorem joinWith_cons (sep : Char) (t : List Char) (ts : List (List Char)) (h : ts ≠ []) :
    joinWith sep (t :: ts) = t ++ sep :: joinWith sep ts := by
  cases ts with
  | nil => exact absurd rfl h
  | cons t' ts' => rfl

theorem joinWith_eq_append (sep : Char) (t : List Char) (ts : List (List Char)) :
    ∃ s, joinWith sep (t :: ts) = t ++ s := by
  cases ts with
  | nil => exact ⟨[], by simp [joinWith]⟩
  | cons t' ts' => exact ⟨sep :: joinWith sep (t' :: ts'), rfl⟩

theorem joinWith_ne_nil (sep : Char) (ts : List (List Char)) (hne : ts ≠ [])
    (h : ∀ t ∈ ts, t ≠ []) : joinWith sep ts ≠ [] := by
  cases ts with
  | nil => exact absurd rfl hne
  | cons t ts' =>
    obtain ⟨s, hs⟩ := joinWith_eq_append sep t ts'
    rw [hs]
    have := h t (by simp)
    intro hc
    rcases List.append_eq_nil.mp hc with ⟨h1, _⟩
    exact this h1

theorem mem_joinWith (sep : Char) : ∀ (ts : List (List Char)) (c : Char),
    c ∈ joinWith sep ts → c = sep ∨ ∃ t ∈ ts, c ∈ t := by
  intro ts
  induction ts with
  | nil => intro c h; simp [joinWith] at h
  | cons t ts' ih =>
    intro c h
    cases ts' with
    | nil => exact Or.inr ⟨t, by simp, h⟩
    | cons t' ts'' =>
      rw [joinWith_cons sep t _ (by simp)] at h
      rcases List.mem_append.mp h with h | h
      · exact Or.inr ⟨t, by simp, h⟩
      · rcases List.mem_cons.mp h with rfl | h
        · exact Or.inl rfl
        · rcases ih c h with h | ⟨t₀, ht₀, hc⟩
          · exact Or.inl h
          · exact Or.inr ⟨t₀, List.mem_cons_of_mem t ht₀, hc⟩

theorem joinWith_head? (sep : Char) (t : List Char) (ts : List (List Char)) (h : t ≠ []) :
    (joinWith sep (t :: ts)).head? = t.head? := by
  obtain ⟨s, hs⟩ := joinWith_eq_append sep t ts
  rw [hs]
  cases t with
  | nil => exact absurd rfl h
  | cons a t' => rfl

theorem joinWith_getLast? (sep : Char) : ∀ (ts : List (List Char)), ts ≠ [] →
    (∀ t ∈ ts, t ≠ []) → ∃ t ∈ ts, (joinWith sep ts).getLast? = t.getLast? := by
  intro ts
  induction ts with
  | nil => intro h; exact absurd rfl h
  | cons t ts' ih =>
    intro _ hall
    cases ts' with
    | nil => exact ⟨t, by simp, rfl⟩
    | cons t' ts'' =>
      obtain ⟨t₀, ht₀, he⟩ := ih (by simp) (fun x hx => hall x (List.mem_cons_of_mem t hx))
      refine ⟨t₀, List.mem_cons_of_mem t ht₀, ?_⟩
      rw [joinWith_cons sep t _ (by simp),
        getLast?_append_right _ _ (by simp)]
      have hJ : joinWith sep (t' :: ts'') ≠ [] :=
        joinWith_ne_nil sep _ (by simp) (fun x hx => hall x (List.mem_cons_of_mem t hx))
      cases hj : joinWith sep (t' :: ts'') with
      | nil => exact absurd hj hJ
      | cons y ys =>
        rw [List.getLast?_cons_cons, ← hj, he]

theorem splitOnChar_of_not_mem (sep : Char) : ∀ (l : List Char), sep ∉ l →
    splitOnChar sep l = [l] := by
  intro l
  induction l with
  | nil => intro _; rfl
  | cons c rest ih =>
    intro h
    have hc : ¬(c = sep) := fun hc => h (by rw [hc]; simp)
    simp only [splitOnChar, if_neg hc]
    rw [ih (fun hm => h (List.mem_cons_of_mem c hm))]

theorem splitOnChar_append (sep : Char) : ∀ (t rest : List Char), sep ∉ t →
    splitOnChar sep (t ++ sep :: rest) = t :: splitOnChar sep rest := by
  intro t
  induction t with
  | nil =>
    intro rest _
    simp [splitOnChar]
  | cons c t' ih =>
    intro rest h
    have hc : ¬(c = sep) := fun hc => h (by rw [hc]; simp)
    simp only [List.cons_append, splitOnChar, if_neg hc]
    simp only [List.append_eq]
    rw [ih rest (fun hm => h (List.mem_cons_of_mem c hm))]

theorem splitOnChar_joinWith (sep : Char) : ∀ (ls : List (List Char)), ls ≠ [] →
    (∀ t ∈ ls, sep ∉ t) → splitOnChar sep (joinWith sep ls) = ls := by
  intro ls
  induction ls with
  | nil => intro h; exact absurd rfl h
  | cons t ls' ih =>
    intro _ hall
    cases ls' with
    | nil => exact splitOnChar_of_not_mem sep t (hall t (by simp))
    | cons t' ls'' =>
      rw [joinWith_cons sep t _ (by simp),
        splitOnChar_append sep t _ (hall t (by simp)),
        ih (by simp) (fun x hx => hall x (List.mem_cons_of_mem t hx))]

theorem splitWSRuns_joinWith : ∀ (ts : List (List Char)), ts ≠ [] →
    (∀ t ∈ ts, t ≠ []) → (∀ t ∈ ts, ∀ c ∈ t, jsWhitespace c = false) →
    splitWSRuns (joinWith ' ' ts) = ts := by
  intro ts
  induction ts with
  | nil => intro h; exact absurd rfl h
  | cons t ts' ih =>
    intro _ hne hws
    have ht_ne : t ≠ [] := hne t (by simp)
    have ht_ws : ∀ c ∈ t, jsWhitespace c = false := hws t (by simp)
    have htake_t : t.takeWhile (fun c => !jsWhitespace c) = t :=
      takeWhile_eq_self_of_all _ t (fun c hc => by simp [ht_ws c hc])
    cases ts' with
    | nil =>
      show splitWSRuns t = [t]
      rw [splitWSRuns_eq_nil_case t
        (dropWhile_eq_nil_of_all _ t (fun c hc => by simp [ht_ws c hc])), htake_t]
    | cons t' ts'' =>
      rw [joinWith_cons ' ' t _ (by simp)]
      have hd : (t ++ ' ' :: joinWith ' ' (t' :: ts'')).dropWhile (fun c => !jsWhitespace c) =
          ' ' :: joinWith ' ' (t' :: ts'') := by
        rw [dropWhile_append_of_all _ t _ (fun c hc => by simp [ht_ws c hc]),
          dropWhile_cons_of_neg _ _ _ (by decide)]
      rw [splitWSRuns_eq_cons_case _ ' ' _ hd]
      have htk : (t ++ ' ' :: joinWith ' ' (t' :: ts'')).takeWhile (fun c => !jsWhitespace c)
          = t := by
        rw [takeWhile_append_of_all _ t _ (fun c hc => by simp [ht_ws c hc]),
          List.takeWhile_cons, if_neg (by decide)]
        simp
      have hJ : (joinWith ' ' (t' :: ts'')).dropWhile jsWhitespace =
          joinWith ' ' (t' :: ts'') := by
        obtain ⟨s, hs⟩ := joinWith_eq_append ' ' t' ts''
        rw [hs]
        cases ht' : t' with
        | nil => exact absurd ht' (hne t' (by simp))
        | cons a t'' =>
          rw [List.cons_append]
          exact dropWhile_cons_of_neg _ _ _
            (hws t' (by simp) a (by rw [ht']; simp))
      rw [htk, hJ, ih (by simp) (fun x hx => hne x (List.mem_cons_of_mem t hx))
        (fun x hx => hws x (List.mem_cons_of_mem t hx))]

/-! ### Digit printing and re-parsing -/

theorem digitChar_isDigit (d : Nat) (h : d < 10) : (Nat.digitChar d).isDigit = true := by
  interval_cases d <;> decide

theorem digitChar_not_ws (d : Nat) (h : d < 10) : jsWhitespace (Nat.digitChar d) = false := by
  interval_cases d <;> decide

theorem digitChar_ne_signs (d : Nat) (h : d < 10) :
    Nat.digitChar d ≠ '-' ∧ Nat.digitChar d ≠ '+' := by
  interval_cases d <;> exact ⟨by decide, by decide⟩

theorem digitChar_val (d : Nat) (h : d < 10) : (Nat.digitChar d).toNat - 48 = d := by
  interval_cases d <;> decide

theorem natToDigits_ne_nil (n : Nat) : natToDigits n ≠ [] := by
  rw [natToDigits_eq]
  split
  · simp
  · simp

theorem natToDigits_all (n : Nat) : ∀ c ∈ natToDigits n,
    c.isDigit = true ∧ jsWhitespace c = false ∧ c ≠ '-' ∧ c ≠ '+' := by
  induction n using Nat.strong_induction_on with
  | _ n ih =>
    rw [natToDigits_eq]
    by_cases h10 : n < 10
    · rw [if_pos h10]
      intro c hc
      rcases List.mem_singleton.mp hc with rfl
      exact ⟨digitChar_isDigit _ h10, digitChar_not_ws _ h10,
        (digitChar_ne_signs _ h10).1, (digitChar_ne_signs _ h10).2⟩
    · rw [if_neg h10]
      intro c hc
      rcases List.mem_append.mp hc with hc | hc
      · exact ih (n / 10) (by omega) c hc
      · rcases List.mem_singleton.mp hc with rfl
        have hm : n % 10 < 10 := by omega
        exact ⟨digitChar_isDigit _ hm, digitChar_not_ws _ hm,
          (digitChar_ne_signs _ hm).1, (digitChar_ne_signs _ hm).2⟩

theorem digitsToNat_append (ds : List Char) (c : Char) :
    digitsToNat (ds ++ [c]) = digitsToNat ds * 10 + (c.toNat - 48) := by
  simp [digitsToNat, List.foldl_append]

theorem digitsToNat_natToDigits (n : Nat) : digitsToNat (natToDigits n) = n := by
  induction n using Nat.strong_induction_on with
  | _ n ih =>
    rw [natToDigits_eq]
    by_cases h10 : n < 10
    · rw [if_pos h10]
      show digitsToNat ([] ++ [Nat.digitChar n]) = n
      rw [digitsToNat_append]
      have : digitsToNat [] = 0 := rfl
      rw [this, digitChar_val n h10]
      omega
    · rw [if_neg h10, digitsToNat_append, ih (n / 10) (by omega),
        digitChar_val (n % 10) (by omega)]
      omega

theorem jsNumToString_not_ws (n : Int) : ∀ c ∈ jsNumToString n, jsWhitespace c = false := by
  unfold jsNumToString
  split
  · intro c hc
    rcases List.mem_cons.mp hc with rfl | hc
    · decide
    · exact (natToDigits_all _ c hc).2.1
  · intro c hc
    exact (natToDigits_all _ c hc).2.1

theorem jsNumToString_ne_nil (n : Int) : jsNumToString n ≠ [] := by
  unfold jsNumToString
  split
  · simp
  · exact natToDigits_ne_nil _

theorem ne_nl_of_not_ws (c : Char) (h : jsWhitespace c = false) : c ≠ '\n' := by
  intro hc
  rw [hc] at h
  exact absurd h (by decide)

theorem parseIntJS_jsNumToString (n : Int) : parseIntJS (jsNumToString n) = some n := by
  unfold jsNumToString
  by_cases hn : n < 0
  · rw [if_pos hn]
    unfold parseIntJS
    rw [dropWhile_cons_of_neg jsWhitespace '-' _ (by decide)]
    dsimp only
    rw [if_pos rfl,
      takeWhile_eq_self_of_all Char.isDigit _ (fun c hc => (natToDigits_all _ c hc).1)]
    rw [if_neg (by simpa [List.isEmpty_iff] using natToDigits_ne_nil n.natAbs)]
    rw [digitsToNat_natToDigits]
    congr 1
    omega
  · rw [if_neg hn]
    unfold parseIntJS
    cases heq : natToDigits n.toNat with
    | nil => exact absurd heq (natToDigits_ne_nil _)
    | cons c cs =>
      have hc : c ∈ natToDigits n.toNat := by rw [heq]; simp
      have hprops := natToDigits_all n.toNat c hc
      rw [dropWhile_cons_of_neg jsWhitespace c cs hprops.2.1]
      dsimp only
      rw [if_neg hprops.2.2.1, if_neg hprops.2.2.2, ← heq,
        takeWhile_eq_self_of_all Char.isDigit _ (fun x hx => (natToDigits_all _ x hx).1),
        if_neg (by simpa [List.isEmpty_iff] using natToDigits_ne_nil n.toNat),
        digitsToNat_natToDigits]
      congr 1
      omega

/-! ### Per-line parser characterization -/

theorem getLastD_mem {α : Type} : ∀ (l : List α) (d : α), l ≠ [] → l.getLastD d ∈ l := by
  intro l
  induction l with
  | nil => intro d h; exact absurd rfl h
  | cons a l' ih =>
    intro d _
    cases hl : l' with
    | nil => simp [List.getLastD]
    | cons x xs =>
      subst hl
      have := ih d (by simp)
      simpa [List.getLastD] using this

theorem tokenize_facts (line : List Char) (h3 : 3 ≤ (tokenize line).length) :
    jsTrim line ≠ [] ∧ (∀ t ∈ tokenize line, t ≠ []) ∧
    (∀ t ∈ tokenize line, ∀ c ∈ t, jsWhitespace c = false) := by
  have htrim : jsTrim line ≠ [] := by
    intro h
    have : tokenize line = [[]] := by
      unfold tokenize
      rw [h, splitWSRuns_nil]
    rw [this] at h3
    simp at h3
  exact ⟨htrim, tokenize_ne_nil line htrim, tokenize_wsfree line⟩

theorem mids_facts (line : List Char) (h3 : 3 ≤ (tokenize line).length) :
    ((tokenize line).drop 1).dropLast ≠ [] ∧
    (∀ t ∈ ((tokenize line).drop 1).dropLast, t ≠ [] ∧ ∀ c ∈ t, jsWhitespace c = false) ∧
    joinWith ' ' (((tokenize line).drop 1).dropLast) ≠ [] ∧
    (tokenize line).getLastD [] ≠ [] ∧
    (∀ c ∈ (tokenize line).getLastD [], jsWhitespace c = false) := by
  obtain ⟨-, hne, hws⟩ := tokenize_facts line h3
  have hmids_sub : ((tokenize line).drop 1).dropLast.Sublist (tokenize line) :=
    (List.dropLast_sublist _).trans (List.drop_sublist 1 _)
  have hmids_mem : ∀ t ∈ ((tokenize line).drop 1).dropLast, t ∈ tokenize line :=
    fun t ht => hmids_sub.mem ht
  have hmids_ne : ((tokenize line).drop 1).dropLast ≠ [] := by
    have h1 : ((tokenize line).drop 1).dropLast.length = (tokenize line).length - 1 - 1 := by
      rw [List.length_dropLast, List.length_drop]
    intro h
    rw [h] at h1
    simp at h1
    omega
  have hlast_mem : (tokenize line).getLastD [] ∈ tokenize line :=
    getLastD_mem _ _ (by intro h; rw [h] at h3; simp at h3)
  refine ⟨hmids_ne, fun t ht => ⟨hne t (hmids_mem t ht), hws t (hmids_mem t ht)⟩,
    joinWith_ne_nil ' ' _ hmids_ne (fun t ht => hne t (hmids_mem t ht)),
    hne _ hlast_mem, hws _ hlast_mem⟩

theorem parseLine_cases (line : List Char) (h3 : ¬(tokenize line).length < 3) :
    (parseIntJS ((tokenize line).headD []) = none ∧
      parseLine line = .error (couldNotParseMsg line)) ∨
    (∃ v, parseIntJS ((tokenize line).headD []) = some v ∧
      parseLine line = .ok
        { rank := v,
          name := joinWith ' ' (((tokenize line).drop 1).dropLast),
          position := (tokenize line).getLastD [] }) := by
  obtain ⟨-, -, hjoin_ne, hlast_ne, -⟩ := mids_facts line (by omega)
  have h1 : (joinWith ' ' (((tokenize line).drop 1).dropLast)).isEmpty = false := by
    cases hj : joinWith ' ' (((tokenize line).drop 1).dropLast) with
    | nil => exact absurd hj hjoin_ne
    | cons a l => rfl
  have h2 : ((tokenize line).getLastD []).isEmpty = false := by
    cases hj : (tokenize line).getLastD [] with
    | nil => exact absurd hj hlast_ne
    | cons a l => rfl
  cases hr : parseIntJS ((tokenize line).headD []) with
  | none =>
    refine Or.inl ⟨rfl, ?_⟩
    simp only [parseLine, checkedBuild]
    rw [if_neg h3, hr, if_pos (by simp [formatCheckFails])]
  | some v =>
    refine Or.inr ⟨v, rfl, ?_⟩
    have hguard : formatCheckFails (some v)
        (joinWith ' ' (((tokenize line).drop 1).dropLast))
        ((tokenize line).getLastD []) = false := by
      unfold formatCheckFails
      rw [h1, h2]
      rfl
    simp only [parseLine, checkedBuild]
    rw [if_neg h3, hr, if_neg (by rw [hguard]; simp)]
    rfl

theorem parseLine_err_short (line : List Char) (h3 : (tokenize line).length < 3) :
    parseLine line = .error (malformedLineMsg line) := by
  unfold parseLine
  rw [if_pos h3]

theorem parseLine_ok_inv (line : List Char) (p : Player) (h : parseLine line = .ok p) :
    3 ≤ (tokenize line).length ∧
    parseIntJS ((tokenize line).headD []) = some p.rank ∧
    p.name = joinWith ' ' (((tokenize line).drop 1).dropLast) ∧
    p.position = (tokenize line).getLastD [] ∧
    wfPlayer p := by
  by_cases h3 : (tokenize line).length < 3
  · rw [parseLine_err_short line h3] at h
    exact absurd h (by simp)
  · rcases parseLine_cases line h3 with ⟨-, herr⟩ | ⟨v, hv, hok⟩
    · rw [herr] at h
      exact absurd h (by simp)
    · rw [hok] at h
      obtain rfl := Except.ok.inj h
      obtain ⟨hmids_ne, hmids_all, -, hlast_ne, hlast_ws⟩ := mids_facts line (by omega)
      exact ⟨by omega, hv, rfl, rfl,
        ⟨⟨_, hmids_ne, hmids_all, rfl⟩, hlast_ne, hlast_ws⟩⟩

/-! ### The line loop -/

theorem parseLines_first_error : ∀ (pre : List (List Char)) (line : List Char)
    (post : List (List Char)) (e : List Char),
    (∀ l ∈ pre, jsTrim l = [] ∨ ∃ p, parseLine l = .ok p) →
    jsTrim line ≠ [] → parseLine line = .error e →
    parseLines (pre ++ line :: post) = ([], some e) := by
  intro pre
  induction pre with
  | nil =>
    intro line post e _ hb herr
    simp only [List.nil_append, parseLines]
    rw [if_neg hb, herr]
  | cons l pre' ih =>
    intro line post e hpre hb herr
    simp only [List.cons_append, parseLines]
    by_cases hbl : jsTrim l = []
    · rw [if_pos hbl]
      exact ih line post e (fun x hx => hpre x (List.mem_cons_of_mem l hx)) hb herr
    · rw [if_neg hbl]
      rcases hpre l (by simp) with h | ⟨p, hok⟩
      · exact absurd h hbl
      · rw [hok]
        dsimp only
        simp only [List.append_eq]
        rw [ih line post e (fun x hx => hpre x (List.mem_cons_of_mem l hx)) hb herr]

theorem parseLines_map_ok : ∀ (ps : List Player) (f : Player → List Char),
    (∀ p ∈ ps, jsTrim (f p) ≠ [] ∧ parseLine (f p) = .ok p) →
    parseLines (ps.map f) = (ps, none) := by
  intro ps
  induction ps with
  | nil => intro f _; rfl
  | cons p ps' ih =>
    intro f h
    simp only [List.map_cons, parseLines]
    rw [if_neg (h p (by simp)).1, (h p (by simp)).2]
    dsimp only
    rw [ih f (fun x hx => h x (List.mem_cons_of_mem p hx))]

theorem parseLines_ok_inv : ∀ (lines : List (List Char)) (ps : List Player),
    parseLines lines = (ps, none) → ∀ p ∈ ps, ∃ line, parseLine line = .ok p := by
  intro lines
  induction lines with
  | nil =>
    intro ps h p hp
    simp only [parseLines] at h
    obtain ⟨rfl, -⟩ := Prod.mk.inj h
    simp at hp
  | cons line rest ih =>
    intro ps h p hp
    simp only [parseLines] at h
    by_cases hbl : jsTrim line = []
    · rw [if_pos hbl] at h
      exact ih ps h p hp
    · rw [if_neg hbl] at h
      cases hok : parseLine line with
      | error e =>
        rw [hok] at h
        simp at h
      | ok p₀ =>
        rw [hok] at h
        dsimp only at h
        cases hrest : parseLines rest with
        | mk ps' oe =>
          rw [hrest] at h
          cases oe with
          | some e => simp at h
          | none =>
            dsimp only at h
            obtain ⟨hps, -⟩ := Prod.mk.inj h
            subst hps
            rcases List.mem_cons.mp hp with rfl | hp'
            · exact ⟨line, hok⟩
            · exact ih ps' hrest p hp'

/-! ### Serialization and re-parsing of well-formed records -/

theorem joinWith_append_singleton (sep : Char) : ∀ (mids : List (List Char)) (b : List Char),
    mids ≠ [] → joinWith sep (mids ++ [b]) = joinWith sep mids ++ sep :: b := by
  intro mids
  induction mids with
  | nil => intro b h; exact absurd rfl h
  | cons m mids' ih =>
    intro b _
    cases mids' with
    | nil => rfl
    | cons m' mids'' =>
      rw [List.cons_append, joinWith_cons sep m _ (by simp),
        joinWith_cons sep m _ (by simp), ih b (by simp), List.append_assoc]
      rfl

theorem getLastD_concat {α : Type} : ∀ (l : List α) (b d : α), (l ++ [b]).getLastD d = b := by
  intro l
  induction l with
  | nil => intro b d; rfl
  | cons a l' ih =>
    intro b d
    rw [List.cons_append, List.getLastD_cons, ih]

theorem serializeRecord_eq_join (p : Player) (mids : List (List Char)) (hmne : mids ≠ [])
    (hname : p.name = joinWith ' ' mids) :
    serializeRecord p = joinWith ' ' ([jsNumToString p.rank] ++ mids ++ [p.position]) := by
  have h1 : [jsNumToString p.rank] ++ mids ++ [p.position] =
      jsNumToString p.rank :: (mids ++ [p.position]) := by simp
  unfold serializeRecord
  rw [h1, joinWith_cons ' ' _ _ (by simp),
    joinWith_append_singleton ' ' mids p.position hmne, ← hname]
  simp [List.append_assoc]

theorem serializeRecord_facts (p : Player) (hwf : wfPlayer p) :
    serializeRecord p ≠ [] ∧ ('\n' ∉ serializeRecord p) ∧
    jsTrim (serializeRecord p) = serializeRecord p ∧
    parseLine (serializeRecord p) = .ok p := by
  obtain ⟨⟨mids, hmne, hmall, hname⟩, hpos_ne, hpos_ws⟩ := hwf
  have hts_ne : ∀ t ∈ [jsNumToString p.rank] ++ mids ++ [p.position], t ≠ [] := by
    intro t ht
    rcases List.mem_append.mp ht with ht | ht
    · rcases List.mem_append.mp ht with ht | ht
      · rcases List.mem_singleton.mp ht with rfl
        exact jsNumToString_ne_nil _
      · exact (hmall t ht).1
    · rcases List.mem_singleton.mp ht with rfl
      exact hpos_ne
  have hts_ws : ∀ t ∈ [jsNumToString p.rank] ++ mids ++ [p.position],
      ∀ c ∈ t, jsWhitespace c = false := by
    intro t ht c hc
    rcases List.mem_append.mp ht with ht | ht
    · rcases List.mem_append.mp ht with ht | ht
      · rcases List.mem_singleton.mp ht with rfl
        exact jsNumToString_not_ws _ c hc
      · exact (hmall t ht).2 c hc
    · rcases List.mem_singleton.mp ht with rfl
      exact hpos_ws c hc
  have hjoin := serializeRecord_eq_join p mids hmne hname
  have hts_nonempty : ([jsNumToString p.rank] ++ mids ++ [p.position]) ≠ [] := by simp
  have hser_ne : serializeRecord p ≠ [] := by
    rw [hjoin]
    exact joinWith_ne_nil ' ' _ hts_nonempty hts_ne
  have hnl : '\n' ∉ serializeRecord p := by
    rw [hjoin]
    intro hmem
    rcases mem_joinWith ' ' _ '\n' hmem with h | ⟨t, ht, hc⟩
    · exact absurd h (by decide)
    · exact ne_nl_of_not_ws '\n' (hts_ws t ht '\n' hc) rfl
  have htrim : jsTrim (serializeRecord p) = serializeRecord p := by
    apply jsTrim_eq_self
    · intro a ha
      have hshape : [jsNumToString p.rank] ++ mids ++ [p.position] =
          jsNumToString p.rank :: (mids ++ [p.position]) := by simp
      rw [hjoin, hshape,
        joinWith_head? ' ' (jsNumToString p.rank) _ (jsNumToString_ne_nil _)] at ha
      cases hrs : jsNumToString p.rank with
      | nil => exact absurd hrs (jsNumToString_ne_nil _)
      | cons c cs =>
        rw [hrs] at ha
        simp only [List.head?_cons, Option.some.injEq] at ha
        subst ha
        exact jsNumToString_not_ws p.rank c (by rw [hrs]; simp)
    · intro b hb
      rw [hjoin] at hb
      obtain ⟨t, ht, he⟩ := joinWith_getLast? ' ' _ hts_nonempty hts_ne
      rw [he] at hb
      exact hts_ws t ht b (mem_of_getLast?_eq t b hb)
  have htok : tokenize (serializeRecord p) =
      [jsNumToString p.rank] ++ mids ++ [p.position] := by
    unfold tokenize
    rw [htrim, hjoin]
    exact splitWSRuns_joinWith _ hts_nonempty hts_ne hts_ws
  have hlen : ¬(tokenize (serializeRecord p)).length < 3 := by
    rw [htok]
    simp only [List.length_append, List.length_singleton]
    have : 0 < mids.length := List.length_pos.mpr hmne
    omega
  have hhead : (tokenize (serializeRecord p)).headD [] = jsNumToString p.rank := by
    rw [htok]
    rfl
  have hrank : parseIntJS ((tokenize (serializeRecord p)).headD []) = some p.rank := by
    rw [hhead]
    exact parseIntJS_jsNumToString p.rank
  refine ⟨hser_ne, hnl, htrim, ?_⟩
  rcases parseLine_cases (serializeRecord p) hlen with ⟨hnone, -⟩ | ⟨v, hv, hok⟩
  · rw [hrank] at hnone
    exact absurd hnone (by simp)
  · rw [hrank] at hv
    obtain rfl := Option.some.inj hv
    rw [hok]
    congr 1
    have hdrop : (tokenize (serializeRecord p)).drop 1 = mids ++ [p.position] := by
      rw [htok]
      rfl
    have hmidseq : ((tokenize (serializeRecord p)).drop 1).dropLast = mids := by
      rw [hdrop, List.dropLast_concat]
    have hlast : (tokenize (serializeRecord p)).getLastD [] = p.position := by
      rw [htok, List.append_assoc, List.singleton_append, ← List.cons_append]
      exact getLastD_concat _ _ _
    rw [hmidseq, hlast, ← hname]

/-! ### Parser claims -/

theorem couldNot_ne_malformed (l1 l2 : List Char) :
    couldNotParseMsg l1 ≠ malformedLineMsg l2 := by
  intro h
  have h1 : (couldNotParseMsg l1).headD ' ' = 'C' := rfl
  have h2 : (malformedLineMsg l2).headD ' ' = 'M' := rfl
  rw [h] at h1
  rw [h2] at h1
  exact absurd h1 (by decide)

/-- Claim C5 counterexample: the input text `"abc Foo QB\nx y"` contains the
non-blank line `"x y"` with fewer than 3 tokens, yet the parse fails with the
`Could not parse line` error for the earlier line `"abc Foo QB"` (whose rank
is not an integer), not with a `MalformedLine` error identifying `"x y"`;
so the claim's universally quantified statement is false. -/
theorem parse_malformed_abort_counterexample :
    parsePlayerText "abc Foo QB\nx y".data =
      ([], some (couldNotParseMsg "abc Foo QB".data)) ∧
    (jsTrim "x y".data ≠ [] ∧ (tokenize "x y".data).length < 3) ∧
    couldNotParseMsg "abc Foo QB".data ≠ malformedLineMsg "x y".data := by
  refine ⟨by decide, ⟨by decide, by decide⟩, couldNot_ne_malformed _ _⟩

/-- Claim C5 (amended): for every input text containing a non-blank line
with fewer than 3 whitespace-separated tokens such that every earlier line
is blank or parses successfully, the parse fails with the `MalformedLine`
error identifying that offending line verbatim, and returns no players at
all, regardless of the validity of later lines. -/
theorem parse_malformed_abort (text : List Char) (pre post : List (List Char))
    (line : List Char)
    (hsplit : splitOnChar '\n' (jsTrim text) = pre ++ line :: post)
    (hpre : ∀ l ∈ pre, jsTrim l = [] ∨ ∃ p, parseLine l = .ok p)
    (hblank : jsTrim line ≠ [])
    (hshort : (tokenize line).length < 3) :
    parsePlayerText text = ([], some (malformedLineMsg line)) := by
  unfold parsePlayerText
  rw [hsplit]
  exact parseLines_first_error pre line post _ hpre hblank (parseLine_err_short line hshort)

theorem parse_malformed_abort_witness :
    parsePlayerText "1 Foo QB\nx y".data = ([], some (malformedLineMsg "x y".data)) := by
  apply parse_malformed_abort "1 Foo QB\nx y".data ["1 Foo QB".data] [] "x y".data
  · decide
  · intro l hl
    rcases List.mem_singleton.mp hl with rfl
    exact Or.inr ⟨{ rank := 1, name := "Foo".data, position := "QB".data }, rfl⟩
  · decide
  · decide

/-- Claim C6 counterexample: the code raises the identical error value (the
single combined `Could not parse line` message of line 25) both when the
first token fails integer parsing and when the derived name is empty, so
`InvalidRank` is not an error kind distinct from `InvalidFormat`: for the
line `"abc Foo QB"`, the invalid-rank failure produces exactly the error
that `checkedBuild` produces for a token list with an empty derived name
and a perfectly valid rank. -/
theorem parse_invalid_rank_counterexample :
    parseLine "abc Foo QB".data = .error (couldNotParseMsg "abc Foo QB".data) ∧
    checkedBuild "abc Foo QB".data (tokenize "abc Foo QB".data) =
      .error (couldNotParseMsg "abc Foo QB".data) ∧
    checkedBuild "abc Foo QB".data ["1".data, "QB".data] =
      .error (couldNotParseMsg "abc Foo QB".data) ∧
    parseIntJS "1".data = some 1 := by
  refine ⟨rfl, rfl, rfl, rfl⟩

/-- Claim C6 (amended): for every first problem line with at least 3
whitespace-separated tokens whose first token does not parse as an integer,
the parse fails with the combined `Could not parse line` error identifying
that line verbatim; this error is shared with (not distinct from) the
empty-name/empty-position conditions of the same guard, and only the
`MalformedLine` error is a distinct kind. -/
theorem parse_invalid_rank_error (text : List Char) (pre post : List (List Char))
    (line : List Char)
    (hsplit : splitOnChar '\n' (jsTrim text) = pre ++ line :: post)
    (hpre : ∀ l ∈ pre, jsTrim l = [] ∨ ∃ p, parseLine l = .ok p)
    (hlen : ¬(tokenize line).length < 3)
    (hrank : parseIntJS ((tokenize line).headD []) = none) :
    parsePlayerText text = ([], some (couldNotParseMsg line)) ∧
    couldNotParseMsg line ≠ malformedLineMsg line := by
  refine ⟨?_, couldNot_ne_malformed line line⟩
  unfold parsePlayerText
  rw [hsplit]
  have hblank : jsTrim line ≠ [] := (tokenize_facts line (by omega)).1
  rcases parseLine_cases line hlen with ⟨-, herr⟩ | ⟨v, hv, -⟩
  · exact parseLines_first_error pre line post _ hpre hblank herr
  · rw [hrank] at hv
    exact absurd hv (by simp)

theorem parse_invalid_rank_error_witness :
    parsePlayerText "abc Foo QB".data = ([], some (couldNotParseMsg "abc Foo QB".data)) ∧
    couldNotParseMsg "abc Foo QB".data ≠ malformedLineMsg "abc Foo QB".data := by
  apply parse_invalid_rank_error "abc Foo QB".data [] [] "abc Foo QB".data
  · decide
  · intro l hl
    simp at hl
  · decide
  · decide

/-- Claim C7 counterexample: the line `"0 Foo QB"` parses successfully into
a record whose rank is 0, so the parser does not guarantee rank ≥ 1. -/
theorem parsed_record_fields_counterexample :
    parsePlayerText "0 Foo QB".data =
      ([{ rank := 0, name := "Foo".data, position := "QB".data }], none) ∧
    ¬(1 ≤ ({ rank := 0, name := "Foo".data, position := "QB".data } : Player).rank) := by
  refine ⟨by decide, by decide⟩

/-- Claim C7 (amended): every record of a successfully parsed player
sequence has an integer rank (any integer: the parser does not enforce
rank ≥ 1), a non-empty name, and a non-empty position. -/
theorem parsed_record_fields (text : List Char) (ps : List Player)
    (h : parsePlayerText text = (ps, none)) :
    ∀ p ∈ ps, p.name ≠ [] ∧ p.position ≠ [] := by
  intro p hp
  obtain ⟨line, hline⟩ := parseLines_ok_inv _ ps h p hp
  obtain ⟨⟨mids, hmne, hmall, hname⟩, hpos_ne, -⟩ := (parseLine_ok_inv line p hline).2.2.2.2
  refine ⟨?_, hpos_ne⟩
  rw [hname]
  exact joinWith_ne_nil ' ' mids hmne (fun t ht => (hmall t ht).1)

theorem parsed_record_fields_witness :
    ({ rank := 1, name := "Foo".data, position := "QB".data } : Player).name ≠ [] ∧
    ({ rank := 1, name := "Foo".data, position := "QB".data } : Player).position ≠ [] :=
  parsed_record_fields "1 Foo QB".data
    [{ rank := 1, name := "Foo".data, position := "QB".data }] (by decide) _ (by simp)

/-- Claim C10: for every line splitting into at least 3 tokens, every token
is non-empty, hence the derived name (join of the middle tokens) and the
position (last token) are non-empty; consequently the second error branch
of the parser fires exactly when the first token fails integer parsing, and
when it fires the error is always the (shared) `Could not parse line`
message — the empty-name and empty-position conditions are unreachable. -/
theorem parser_second_branch_iff_bad_rank (line : List Char)
    (h3 : 3 ≤ (tokenize line).length) :
    (∀ t ∈ tokenize line, t ≠ []) ∧
    joinWith ' ' (((tokenize line).drop 1).dropLast) ≠ [] ∧
    (tokenize line).getLastD [] ≠ [] ∧
    ((∃ e, parseLine line = .error e) ↔ parseIntJS ((tokenize line).headD []) = none) ∧
    (∀ e, parseLine line = .error e → e = couldNotParseMsg line) := by
  obtain ⟨-, hne, -⟩ := tokenize_facts line h3
  obtain ⟨-, -, hjoin_ne, hlast_ne, -⟩ := mids_facts line h3
  refine ⟨hne, hjoin_ne, hlast_ne, ?_, ?_⟩
  · constructor
    · rintro ⟨e, he⟩
      rcases parseLine_cases line (by omega) with ⟨hnone, -⟩ | ⟨v, hv, hok⟩
      · exact hnone
      · rw [hok] at he
        exact absurd he (by simp)
    · intro hnone
      rcases parseLine_cases line (by omega) with ⟨-, herr⟩ | ⟨v, hv, -⟩
      · exact ⟨_, herr⟩
      · rw [hnone] at hv
        exact absurd hv (by simp)
  · intro e he
    rcases parseLine_cases line (by omega) with ⟨-, herr⟩ | ⟨v, hv, hok⟩
    · rw [herr] at he
      exact (Except.error.inj he).symm
    · rw [hok] at he
      exact absurd he (by simp)

theorem parser_second_branch_iff_bad_rank_witness :
    (∀ t ∈ tokenize "1 A QB".data, t ≠ []) ∧
    joinWith ' ' (((tokenize "1 A QB".data).drop 1).dropLast) ≠ [] ∧
    (tokenize "1 A QB".data).getLastD [] ≠ [] ∧
    ((∃ e, parseLine "1 A QB".data = .error e) ↔
      parseIntJS ((tokenize "1 A QB".data).headD []) = none) ∧
    (∀ e, parseLine "1 A QB".data = .error e → e = couldNotParseMsg "1 A QB".data) :=
  parser_second_branch_iff_bad_rank "1 A QB".data (by decide)

/-- Claim C8: for every input text on which the parse succeeds with some
player sequence, re-serializing each record as the line
`"{rank} {name} {position}"` (single spaces), joining the lines with
newlines, and parsing again succeeds and yields the same player sequence. -/
theorem parse_serialize_roundtrip (text : List Char) (ps : List Player)
    (h : parsePlayerText text = (ps, none)) :
    parsePlayerText (serializePlayers ps) = (ps, none) := by
  have hwf : ∀ p ∈ ps, wfPlayer p := by
    intro p hp
    obtain ⟨line, hline⟩ := parseLines_ok_inv _ ps h p hp
    exact (parseLine_ok_inv line p hline).2.2.2.2
  cases ps with
  | nil => rfl
  | cons p0 ps' =>
    have hfacts : ∀ p ∈ (p0 :: ps'), serializeRecord p ≠ [] ∧ '\n' ∉ serializeRecord p ∧
        jsTrim (serializeRecord p) = serializeRecord p ∧
        parseLine (serializeRecord p) = .ok p :=
      fun p hp => serializeRecord_facts p (hwf p hp)
    have hlines_all_ne : ∀ l ∈ (p0 :: ps').map serializeRecord, l ≠ [] := by
      intro l hl
      obtain ⟨p, hp, rfl⟩ := List.mem_map.mp hl
      exact (hfacts p hp).1
    have hnl_all : ∀ l ∈ (p0 :: ps').map serializeRecord, '\n' ∉ l := by
      intro l hl
      obtain ⟨p, hp, rfl⟩ := List.mem_map.mp hl
      exact (hfacts p hp).2.1
    have htrim : jsTrim (joinWith '\n' ((p0 :: ps').map serializeRecord)) =
        joinWith '\n' ((p0 :: ps').map serializeRecord) := by
      apply jsTrim_eq_self
      · intro a ha
        rw [List.map_cons, joinWith_head? '\n' _ _ (hfacts p0 (by simp)).1] at ha
        exact jsTrim_head? (serializeRecord p0) a
          (by rw [(hfacts p0 (by simp)).2.2.1]; exact ha)
      · intro b hb
        obtain ⟨t, ht, he⟩ := joinWith_getLast? '\n' _ (by simp) hlines_all_ne
        rw [he] at hb
        obtain ⟨p, hp, rfl⟩ := List.mem_map.mp ht
        exact jsTrim_getLast? (serializeRecord p) b
          (by rw [(hfacts p hp).2.2.1]; exact hb)
    show parseLines
      (splitOnChar '\n' (jsTrim (joinWith '\n' ((p0 :: ps').map serializeRecord)))) = _
    rw [htrim, splitOnChar_joinWith '\n' _ (by simp) hnl_all]
    exact parseLines_map_ok (p0 :: ps') serializeRecord
      (fun p hp => ⟨by rw [(hfacts p hp).2.2.1]; exact (hfacts p hp).1,
        (hfacts p hp).2.2.2⟩)

theorem parse_serialize_roundtrip_witness :
    parsePlayerText
        (serializePlayers [{ rank := 1, name := "Foo".data, position := "QB".data }]) =
      ([{ rank := 1, name := "Foo".data, position := "QB".data }], none) :=
  parse_serialize_roundtrip "1 Foo QB".data _ (by decide)

/-! ### Snake draft: grid write lemmas -/

theorem teamSlot_lt (T i : Nat) (hT : 0 < T) : teamSlot T i < T := by
  unfold teamSlot
  split
  · exact Nat.mod_lt _ hT
  · omega

theorem target_inj (T i j : Nat) (hT : 0 < T)
    (hr : i / T = j / T) (ht : teamSlot T i = teamSlot T j) : i = j := by
  have hi := Nat.div_add_mod i T
  have hj := Nat.div_add_mod j T
  have him : i % T < T := Nat.mod_lt _ hT
  have hjm : j % T < T := Nat.mod_lt _ hT
  unfold teamSlot at ht
  rw [hr] at ht hi
  have hmod : i % T = j % T := by
    by_cases hpar : (j / T) % 2 = 0
    · rw [if_pos hpar, if_pos hpar] at ht
      exact ht
    · rw [if_neg hpar, if_neg hpar] at ht
      omega
  omega

theorem cellIndex_teamSlot (T i : Nat) (hT : 0 < T) :
    cellIndex T (i / T) (teamSlot T i) = i := by
  have him : i % T < T := Nat.mod_lt _ hT
  have hdm := Nat.div_add_mod i T
  rw [Nat.mul_comm T (i / T)] at hdm
  unfold cellIndex teamSlot
  by_cases hpar : (i / T) % 2 = 0
  · rw [if_pos hpar, if_pos hpar]
    omega
  · rw [if_neg hpar, if_neg hpar]
    have h2 : T - 1 - (T - 1 - i % T) = i % T := by omega
    rw [h2]
    omega

theorem cellIndex_facts (T r t : Nat) (hT : 0 < T) (ht : t < T) :
    cellIndex T r t / T = r ∧ teamSlot T (cellIndex T r t) = t := by
  have hpos : (if r % 2 = 0 then t else T - 1 - t) < T := by
    split
    · exact ht
    · omega
  have hdiv : cellIndex T r t / T = r := by
    unfold cellIndex
    rw [Nat.mul_comm, Nat.mul_add_div hT, Nat.div_eq_of_lt hpos]
    omega
  have hmod : cellIndex T r t % T = (if r % 2 = 0 then t else T - 1 - t) := by
    unfold cellIndex
    rw [Nat.mul_comm, Nat.mul_add_mod, Nat.mod_eq_of_lt hpos]
  refine ⟨hdiv, ?_⟩
  unfold teamSlot
  rw [hdiv, hmod]
  by_cases hpar : r % 2 = 0
  · rw [if_pos hpar, if_pos hpar]
  · rw [if_neg hpar, if_neg hpar]
    omega

theorem placePlayer_eq (T : Nat) (rounds : List (List (Option Player)))
    (index : Nat) (p : Player) :
    placePlayer T rounds index p =
      if index / T < rounds.length ∧ teamSlot T index < T then
        rounds.set (index / T) ((rounds.getD (index / T) []).set (teamSlot T index) (some p))
      else rounds := rfl

theorem placePlayer_dims (T R : Nat) (rounds : List (List (Option Player)))
    (index : Nat) (p : Player)
    (hlen : rounds.length = R) (hrow : ∀ r < R, (rounds.getD r []).length = T) :
    (placePlayer T rounds index p).length = R ∧
    ∀ r < R, ((placePlayer T rounds index p).getD r []).length = T := by
  rw [placePlayer_eq]
  split
  · rename_i hcond
    refine ⟨by rw [List.length_set, hlen], ?_⟩
    intro r hr
    by_cases heq : index / T = r
    · subst heq
      rw [getD_set_self _ _ _ _ hcond.1, List.length_set]
      exact hrow _ (by rw [← hlen]; exact hcond.1)
    · rw [getD_set_ne _ _ _ _ _ heq]
      exact hrow r hr
  · exact ⟨hlen, hrow⟩

theorem placePlayer_cell_write (T : Nat) (rounds : List (List (Option Player)))
    (index : Nat) (p : Player)
    (hr : index / T < rounds.length) (ht : teamSlot T index < T)
    (hrow : (rounds.getD (index / T) []).length = T) :
    cellGet (placePlayer T rounds index p) (index / T) (teamSlot T index) = some p := by
  rw [placePlayer_eq, if_pos ⟨hr, ht⟩]
  unfold cellGet
  rw [getD_set_self _ _ _ _ hr, getD_set_self _ _ _ _ (by rw [hrow]; exact ht)]

theorem placePlayer_cell_other (T : Nat) (rounds : List (List (Option Player)))
    (index : Nat) (p : Player) (r t : Nat)
    (h : ¬(r = index / T ∧ t = teamSlot T index)) :
    cellGet (placePlayer T rounds index p) r t = cellGet rounds r t := by
  rw [placePlayer_eq]
  split
  · rename_i hcond
    unfold cellGet
    by_cases hreq : r = index / T
    · subst hreq
      have htne : t ≠ teamSlot T index := fun he => h ⟨rfl, he⟩
      rw [getD_set_self _ _ _ _ hcond.1, getD_set_ne _ _ _ _ _ (fun he => htne he.symm)]
    · rw [getD_set_ne _ _ _ _ _ (fun he => hreq he.symm)]
  · rfl

theorem placeAll_dims (T R : Nat) : ∀ (ps : List Player)
    (rounds : List (List (Option Player))) (k : Nat),
    rounds.length = R → (∀ r < R, (rounds.getD r []).length = T) →
    (placeAll T rounds ps k).length = R ∧
    ∀ r < R, ((placeAll T rounds ps k).getD r []).length = T := by
  intro ps
  induction ps with
  | nil => intro rounds k h1 h2; exact ⟨h1, h2⟩
  | cons p ps' ih =>
    intro rounds k h1 h2
    simp only [placeAll]
    obtain ⟨g1, g2⟩ := placePlayer_dims T R rounds k p h1 h2
    exact ih _ (k + 1) g1 g2

theorem placeAll_untouched (T : Nat) : ∀ (ps : List Player)
    (rounds : List (List (Option Player))) (k r t : Nat),
    (∀ j, j < ps.length → ¬(r = (k + j) / T ∧ t = teamSlot T (k + j))) →
    cellGet (placeAll T rounds ps k) r t = cellGet rounds r t := by
  intro ps
  induction ps with
  | nil => intro rounds k r t _; rfl
  | cons p ps' ih =>
    intro rounds k r t h
    simp only [placeAll]
    rw [ih (placePlayer T rounds k p) (k + 1) r t ?_]
    · exact placePlayer_cell_other T rounds k p r t
        (by have := h 0 (by simp); simpa using this)
    · intro j hj
      have he : k + 1 + j = k + (j + 1) := by omega
      rw [he]
      exact h (j + 1) (by simp only [List.length_cons]; omega)

theorem placeAll_write (T R : Nat) (hT : 0 < T) : ∀ (ps : List Player)
    (rounds : List (List (Option Player))) (k j : Nat) (hj : j < ps.length),
    rounds.length = R → (∀ r < R, (rounds.getD r []).length = T) →
    (k + j) / T < R → teamSlot T (k + j) < T →
    cellGet (placeAll T rounds ps k) ((k + j) / T) (teamSlot T (k + j)) =
      some (ps.get ⟨j, hj⟩) := by
  intro ps
  induction ps with
  | nil => intro rounds k j hj; simp at hj
  | cons p ps' ih =>
    intro rounds k j hj h1 h2 hrR htT
    simp only [placeAll]
    cases j with
    | zero =>
      simp only [Nat.add_zero] at hrR htT ⊢
      rw [placeAll_untouched T ps' (placePlayer T rounds k p) (k + 1)
        (k / T) (teamSlot T k) ?_]
      · rw [placePlayer_cell_write T rounds k p (by rw [h1]; exact hrR) htT
          (h2 _ hrR)]
        rfl
      · intro j' hj' hcontra
        obtain ⟨he1, he2⟩ := hcontra
        have := target_inj T k (k + 1 + j') hT he1 he2
        omega
    | succ j' =>
      have he : k + (j' + 1) = (k + 1) + j' := by omega
      rw [he] at hrR htT ⊢
      obtain ⟨g1, g2⟩ := placePlayer_dims T R rounds k p h1 h2
      exact ih (placePlayer T rounds k p) (k + 1) j'
        (by simp only [List.length_cons] at hj; omega) g1 g2 hrR htT

theorem replicate_dims (T R : Nat) :
    (List.replicate R (List.replicate T (none : Option Player))).length = R ∧
    ∀ r < R, ((List.replicate R (List.replicate T (none : Option Player))).getD r []).length
      = T := by
  refine ⟨List.length_replicate R _, ?_⟩
  intro r hr
  rw [getD_replicate _ _ _ _ hr, List.length_replicate]

theorem buildRounds_cell (ps : List Player) (T R : Nat) (hT : 0 < T)
    (r t : Nat) (hr : r < R) (ht : t < T) :
    cellGet (buildRounds T R ps) r t =
      if h : cellIndex T r t < ps.length then some (ps.get ⟨cellIndex T r t, h⟩)
      else none := by
  obtain ⟨hd1, hd2⟩ := replicate_dims T R
  unfold buildRounds
  split
  · rename_i hlt
    obtain ⟨hdiv, hslot⟩ := cellIndex_facts T r t hT ht
    have hw := placeAll_write T R hT ps _ 0 (cellIndex T r t) hlt hd1 hd2
      (by rw [Nat.zero_add, hdiv]; exact hr)
      (by rw [Nat.zero_add, hslot]; exact ht)
    rw [Nat.zero_add, hdiv, hslot] at hw
    exact hw
  · rename_i hge
    rw [placeAll_untouched T ps _ 0 r t ?_]
    · unfold cellGet
      rw [getD_replicate _ _ _ _ hr, getD_replicate _ _ _ _ ht]
    · intro j hj hcontra
      obtain ⟨he1, he2⟩ := hcontra
      rw [Nat.zero_add] at he1 he2
      have hj_eq : cellIndex T r t = j := by
        rw [he1, he2, cellIndex_teamSlot T j hT]
      rw [hj_eq] at hge
      exact hge hj

/-! ### Snake draft: board characterization -/

theorem le_ceil_mul (len T : Nat) (hT : 0 < T) : len ≤ T * ((len + T - 1) / T) := by
  have h1 := Nat.div_add_mod (len + T - 1) T
  have hm : (len + T - 1) % T < T := Nat.mod_lt _ hT
  omega

theorem div_lt_ceil (len T i : Nat) (hT : 0 < T) (hi : i < len) :
    i / T < (len + T - 1) / T := by
  have h2 := le_ceil_mul len T hT
  by_contra hcon
  push_neg at hcon
  have h3 : T * ((len + T - 1) / T) ≤ T * (i / T) := Nat.mul_le_mul_left T hcon
  have h4 : T * (i / T) ≤ i := by
    rw [Nat.mul_comm]
    exact Nat.div_mul_le_self i T
  omega

theorem map_range_getD {α : Type} (f : Nat → α) (d : α) (n c : Nat) (hc : c < n) :
    ((List.range n).map f).getD c d = f c := by
  have hlen : c < ((List.range n).map f).length := by
    rw [List.length_map, List.length_range]
    exact hc
  rw [List.getD_eq_getElem _ _ hlen, List.getElem_map, List.getElem_range]

theorem generateSnakeDraft_eq (players : List Player) (n : Int)
    (hp : players ≠ []) (hn : 1 ≤ n) :
    generateSnakeDraft players n =
      (List.range n.toNat).map fun t =>
        (teamLabel t,
         (List.range ((players.length + n.toNat - 1) / n.toNat)).map fun r =>
           cellGet (buildRounds n.toNat ((players.length + n.toNat - 1) / n.toNat) players)
             r t) := by
  have hcond : ¬(players.length = 0 ∨ n ≤ 0) := by
    intro h
    rcases h with h | h
    · exact hp (List.length_eq_zero.mp h)
    · omega
  unfold generateSnakeDraft
  rw [if_neg hcond]

theorem board_cell_at (players : List Player) (n : Int) (i : Nat)
    (hp : players ≠ []) (hn : 1 ≤ n) (hi : i < players.length) :
    ((generateSnakeDraft players n).getD (teamSlot n.toNat i) ("", [])).1 =
      teamLabel (teamSlot n.toNat i) ∧
    ((generateSnakeDraft players n).getD (teamSlot n.toNat i) ("", [])).2.getD
      (i / n.toNat) none = some (players.get ⟨i, hi⟩) := by
  have hT : 0 < n.toNat := by omega
  have hc_lt : teamSlot n.toNat i < n.toNat := teamSlot_lt _ _ hT
  have hr_lt : i / n.toNat < (players.length + n.toNat - 1) / n.toNat :=
    div_lt_ceil _ _ _ hT hi
  rw [generateSnakeDraft_eq players n hp hn, map_range_getD _ _ _ _ hc_lt]
  refine ⟨rfl, ?_⟩
  show ((List.range _).map _).getD _ _ = _
  rw [map_range_getD _ _ _ _ hr_lt,
    buildRounds_cell players _ _ hT _ _ hr_lt hc_lt]
  have hci : cellIndex n.toNat (i / n.toNat) (teamSlot n.toNat i) = i :=
    cellIndex_teamSlot _ _ hT
  simp only [hci]
  rw [dif_pos hi]

/-- Claim C4: degenerate inputs are not errors: the assigner applied to an
empty player list returns the empty board for every team count, and for
every player list a team count ≤ 0 returns the empty board. -/
theorem assign_degenerate (players : List Player) (n : Int)
    (h : players = [] ∨ n ≤ 0) : generateSnakeDraft players n = [] := by
  unfold generateSnakeDraft
  rcases h with rfl | h
  · have hc : ([] : List Player).length = 0 ∨ n ≤ 0 := Or.inl rfl
    rw [if_pos hc]
  · have hc : players.length = 0 ∨ n ≤ 0 := Or.inr h
    rw [if_pos hc]

theorem assign_degenerate_witness :
    generateSnakeDraft [] 5 = [] ∧
    generateSnakeDraft [{ rank := 1, name := "A".data, position := "QB".data }] 0 = [] ∧
    generateSnakeDraft [{ rank := 1, name := "A".data, position := "QB".data }] (-3) = [] :=
  ⟨assign_degenerate [] 5 (Or.inl rfl),
   assign_degenerate _ 0 (Or.inr (by omega)),
   assign_degenerate _ (-3) (Or.inr (by omega))⟩

/-- Claim C1: snake placement rule: for every non-empty player list and
every teamCount ≥ 1, the player at zero-based input index `i` is placed in
the board at round `i / teamCount` of the team whose zero-based index is
`i % teamCount` when the round is even and `teamCount - 1 - i % teamCount`
when it is odd; in particular, for teamCount = 3 and 7 players, round 0
places players 1,2,3 in teams 1,2,3, round 1 places players 4,5,6 in teams
3,2,1, round 2 places player 7 in team 1, and teams 2 and 3 hold
empty-slot markers in round 2. -/
theorem snake_placement (players : List Player) (n : Int) (i : Nat)
    (hp : players ≠ []) (hn : 1 ≤ n) (hi : i < players.length) :
    (((generateSnakeDraft players n).getD
        (if (i / n.toNat) % 2 = 0 then i % n.toNat else n.toNat - 1 - i % n.toNat)
        ("", [])).1 =
      teamLabel (if (i / n.toNat) % 2 = 0 then i % n.toNat
        else n.toNat - 1 - i % n.toNat) ∧
     ((generateSnakeDraft players n).getD
        (if (i / n.toNat) % 2 = 0 then i % n.toNat else n.toNat - 1 - i % n.toNat)
        ("", [])).2.getD (i / n.toNat) none = some (players.get ⟨i, hi⟩)) ∧
    generateSnakeDraft
      [⟨1, "P1".data, "RB".data⟩, ⟨2, "P2".data, "RB".data⟩, ⟨3, "P3".data, "RB".data⟩,
       ⟨4, "P4".data, "RB".data⟩, ⟨5, "P5".data, "RB".data⟩, ⟨6, "P6".data, "RB".data⟩,
       ⟨7, "P7".data, "RB".data⟩] 3 =
      [("Team 1", [some ⟨1, "P1".data, "RB".data⟩, some ⟨6, "P6".data, "RB".data⟩,
          some ⟨7, "P7".data, "RB".data⟩]),
       ("Team 2", [some ⟨2, "P2".data, "RB".data⟩, some ⟨5, "P5".data, "RB".data⟩, none]),
       ("Team 3", [some ⟨3, "P3".data, "RB".data⟩, some ⟨4, "P4".data, "RB".data⟩,
          none])] := by
  have hc_eq : (if (i / n.toNat) % 2 = 0 then i % n.toNat
      else n.toNat - 1 - i % n.toNat) = teamSlot n.toNat i := rfl
  rw [hc_eq]
  exact ⟨board_cell_at players n i hp hn hi, by decide⟩

theorem snake_placement_witness :
    (((generateSnakeDraft [⟨1, "A".data, "RB".data⟩, ⟨2, "B".data, "RB".data⟩,
        ⟨3, "C".data, "RB".data⟩] 2).getD
        (if (2 / (2:Int).toNat) % 2 = 0 then 2 % (2:Int).toNat
          else (2:Int).toNat - 1 - 2 % (2:Int).toNat) ("", [])).1 =
      teamLabel (if (2 / (2:Int).toNat) % 2 = 0 then 2 % (2:Int).toNat
        else (2:Int).toNat - 1 - 2 % (2:Int).toNat) ∧
     ((generateSnakeDraft [⟨1, "A".data, "RB".data⟩, ⟨2, "B".data, "RB".data⟩,
        ⟨3, "C".data, "RB".data⟩] 2).getD
        (if (2 / (2:Int).toNat) % 2 = 0 then 2 % (2:Int).toNat
          else (2:Int).toNat - 1 - 2 % (2:Int).toNat) ("", [])).2.getD
        (2 / (2:Int).toNat) none =
      some ([⟨1, "A".data, "RB".data⟩, ⟨2, "B".data, "RB".data⟩,
        ⟨3, "C".data, "RB".data⟩].get ⟨2, by decide⟩)) ∧
    generateSnakeDraft
      [⟨1, "P1".data, "RB".data⟩, ⟨2, "P2".data, "RB".data⟩, ⟨3, "P3".data, "RB".data⟩,
       ⟨4, "P4".data, "RB".data⟩, ⟨5, "P5".data, "RB".data⟩, ⟨6, "P6".data, "RB".data⟩,
       ⟨7, "P7".data, "RB".data⟩] 3 =
      [("Team 1", [some ⟨1, "P1".data, "RB".data⟩, some ⟨6, "P6".data, "RB".data⟩,
          some ⟨7, "P7".data, "RB".data⟩]),
       ("Team 2", [some ⟨2, "P2".data, "RB".data⟩, some ⟨5, "P5".data, "RB".data⟩, none]),
       ("Team 3", [some ⟨3, "P3".data, "RB".data⟩, some ⟨4, "P4".data, "RB".data⟩,
          none])] :=
  snake_placement _ 2 2 (by decide) (by decide) (by decide)

/-- Claim C9: `togglePicked` flips membership of the given rank, leaves
every other rank unchanged, restores the original membership when applied
twice, and is not idempotent. -/
theorem toggle_picked_flip (S : Finset Int) (r : Int) :
    (r ∈ handleTogglePlayerPicked S r ↔ r ∉ S) ∧
    (∀ r', r' ≠ r → (r' ∈ handleTogglePlayerPicked S r ↔ r' ∈ S)) ∧
    (r ∈ handleTogglePlayerPicked (handleTogglePlayerPicked S r) r ↔ r ∈ S) ∧
    handleTogglePlayerPicked (handleTogglePlayerPicked ∅ 0) 0 ≠
      handleTogglePlayerPicked ∅ 0 := by
  refine ⟨?_, ?_, ?_, ?_⟩
  · unfold handleTogglePlayerPicked
    split
    · rename_i hmem
      simp [Finset.mem_erase, hmem]
    · rename_i hmem
      simp [Finset.mem_insert, hmem]
  · intro r' hne
    unfold handleTogglePlayerPicked
    split
    · simp [Finset.mem_erase, hne]
    · simp [Finset.mem_insert, hne]
  · unfold handleTogglePlayerPicked
    by_cases hmem : r ∈ S
    · rw [if_pos hmem, if_neg (Finset.not_mem_erase r S)]
      simp [Finset.mem_insert, hmem]
    · rw [if_neg hmem, if_pos (Finset.mem_insert_self r S)]
      simp [Finset.mem_erase, hmem]
  · intro h
    have h0 : (0 : Int) ∈ handleTogglePlayerPicked ∅ 0 := by
      unfold handleTogglePlayerPicked
      rw [if_neg (Finset.not_mem_empty 0)]
      exact Finset.mem_insert_self 0 ∅
    have h1 : (0 : Int) ∉ handleTogglePlayerPicked (handleTogglePlayerPicked ∅ 0) 0 := by
      unfold handleTogglePlayerPicked
      rw [if_neg (Finset.not_mem_empty 0), if_pos (Finset.mem_insert_self 0 ∅)]
      exact Finset.not_mem_erase 0 _
    rw [h] at h1
    exact h1 h0

theorem toggle_picked_flip_witness :
    ((1 : Int) ∈ handleTogglePlayerPicked ∅ 1 ↔ (1 : Int) ∉ (∅ : Finset Int)) ∧
    ((2 : Int) ∈ handleTogglePlayerPicked ∅ 1 ↔ (2 : Int) ∈ (∅ : Finset Int)) :=
  ⟨(toggle_picked_flip ∅ 1).1, (toggle_picked_flip ∅ 1).2.1 2 (by decide)⟩

/-! ### Snake draft: cell counting -/

theorem countP_range_eq_sum (R : Nat) (p : Nat → Bool) :
    (List.range R).countP p = ∑ r ∈ Finset.range R, (if p r then 1 else 0) := by
  induction R with
  | zero => rfl
  | succ m ih =>
    rw [List.range_succ, List.countP_append, ih, Finset.sum_range_succ]
    simp [List.countP_cons]

theorem list_range_map_sum (n : Nat) (g : Nat → Nat) :
    ((List.range n).map g).sum = ∑ t ∈ Finset.range n, g t := by
  induction n with
  | zero => rfl
  | succ m ih =>
    rw [List.range_succ, List.map_append, List.sum_append, ih, Finset.sum_range_succ]
    simp

theorem sum_ind_lt (T a len : Nat) :
    (∑ t ∈ Finset.range T, if a + t < len then 1 else 0) = min T (len - a) := by
  induction T with
  | zero => simp
  | succ m ih =>
    rw [Finset.sum_range_succ, ih]
    split <;> omega

theorem sum_min_rounds (T len R : Nat) :
    (∑ r ∈ Finset.range R, min T (len - r * T)) = min (R * T) len := by
  induction R with
  | zero => simp
  | succ m ih =>
    rw [Finset.sum_range_succ, ih, Nat.succ_mul]
    omega

theorem board_count (ps : List Player) (T R : Nat) (hT : 0 < T)
    (hle : ps.length ≤ R * T) :
    ((List.range T).map fun t =>
      ((List.range R).map fun r => cellGet (buildRounds T R ps) r t).countP
        (fun c => c.isSome)).sum = ps.length := by
  have hrow : ∀ t, t < T →
      ((List.range R).map fun r => cellGet (buildRounds T R ps) r t).countP
        (fun c => c.isSome) =
      ∑ r ∈ Finset.range R, (if cellIndex T r t < ps.length then 1 else 0) := by
    intro t ht
    rw [List.countP_map, countP_range_eq_sum]
    refine Finset.sum_congr rfl fun r hr => ?_
    have hcell := buildRounds_cell ps T R hT r t (Finset.mem_range.mp hr) ht
    by_cases hcl : cellIndex T r t < ps.length
    · rw [dif_pos hcl] at hcell
      simp only [Function.comp, hcell, if_pos hcl]
      rfl
    · rw [dif_neg hcl] at hcell
      simp only [Function.comp, hcell, if_neg hcl]
      rfl
  rw [list_range_map_sum, Finset.sum_congr rfl (fun t ht => hrow t (Finset.mem_range.mp ht)),
    Finset.sum_comm]
  have hinner : ∀ r, (∑ t ∈ Finset.range T, if cellIndex T r t < ps.length then 1 else 0)
      = min T (ps.length - r * T) := by
    intro r
    unfold cellIndex
    by_cases hpar : r % 2 = 0
    · simp only [if_pos hpar]
      exact sum_ind_lt T (r * T) ps.length
    · simp only [if_neg hpar]
      have hrefl := Finset.sum_range_reflect
        (fun x => if r * T + x < ps.length then (1 : Nat) else 0) T
      simp only at hrefl
      rw [hrefl]
      exact sum_ind_lt T (r * T) ps.length
  rw [Finset.sum_congr rfl (fun r _ => hinner r), sum_min_rounds]
  omega

/-- Claim C2: board shape: for every teamCount ≥ 1 and non-empty player
list, the board has exactly teamCount teams, every team's sequence has the
same length `ceil(playerCount / teamCount)`, and exactly playerCount cells
across the whole board hold players (the remaining cells hold the explicit
empty-slot marker `none` — the rows are full-length, never short). -/
theorem board_shape (players : List Player) (n : Int)
    (hp : players ≠ []) (hn : 1 ≤ n) :
    (generateSnakeDraft players n).length = n.toNat ∧
    (∀ e ∈ generateSnakeDraft players n,
      e.2.length = (players.length + n.toNat - 1) / n.toNat) ∧
    ((generateSnakeDraft players n).map
      (fun e => e.2.countP (fun c => c.isSome))).sum = players.length := by
  have hT : 0 < n.toNat := by omega
  rw [generateSnakeDraft_eq players n hp hn]
  refine ⟨by simp, ?_, ?_⟩
  · intro e he
    obtain ⟨t, ht, rfl⟩ := List.mem_map.mp he
    simp
  · rw [List.map_map]
    have hle : players.length ≤ ((players.length + n.toNat - 1) / n.toNat) * n.toNat := by
      have := le_ceil_mul players.length n.toNat hT
      have hcomm : n.toNat * ((players.length + n.toNat - 1) / n.toNat) =
          ((players.length + n.toNat - 1) / n.toNat) * n.toNat := Nat.mul_comm _ _
      omega
    exact board_count players n.toNat _ hT hle

theorem board_shape_witness :
    (generateSnakeDraft [⟨1, "A".data, "RB".data⟩, ⟨2, "B".data, "RB".data⟩,
      ⟨3, "C".data, "RB".data⟩] 2).length = (2 : Int).toNat ∧
    (∀ e ∈ generateSnakeDraft [⟨1, "A".data, "RB".data⟩, ⟨2, "B".data, "RB".data⟩,
      ⟨3, "C".data, "RB".data⟩] 2,
      e.2.length = (([⟨1, "A".data, "RB".data⟩, ⟨2, "B".data, "RB".data⟩,
        ⟨3, "C".data, "RB".data⟩] : List Player).length + (2 : Int).toNat - 1) /
          (2 : Int).toNat) ∧
    ((generateSnakeDraft [⟨1, "A".data, "RB".data⟩, ⟨2, "B".data, "RB".data⟩,
      ⟨3, "C".data, "RB".data⟩] 2).map
      (fun e => e.2.countP (fun c => c.isSome))).sum =
      ([⟨1, "A".data, "RB".data⟩, ⟨2, "B".data, "RB".data⟩,
        ⟨3, "C".data, "RB".data⟩] : List Player).length :=
  board_shape _ 2 (by decide) (by decide)

/-! ### Overall pick numbers -/

theorem overallPick_teamSlot (T i : Nat) (hT : 0 < T) :
    overallPick T (i / T) (teamSlot T i) = i + 1 := by
  have him : i % T < T := Nat.mod_lt _ hT
  have hdm := Nat.div_add_mod i T
  rw [Nat.mul_comm T (i / T)] at hdm
  unfold overallPick teamSlot
  by_cases hpar : (i / T) % 2 = 0
  · rw [if_pos hpar, if_pos hpar]
    omega
  · rw [if_neg hpar, if_neg hpar]
    have h2 : T - 1 - (T - 1 - i % T) = i % T := by omega
    rw [h2]
    omega

/-- Claim C3 counterexample: with teamCount = 2 and 4 players every board
cell is occupied, yet traversing round-major and then by ascending physical
team column the overall pick numbers come out 1, 2, 4, 3 — round 1's picks
decrease along the physical columns — so the overall pick numbers of
occupied cells are not strictly increasing in that traversal order. -/
theorem overall_pick_counterexample :
    ((List.range 2).map fun r => (List.range 2).map fun t => overallPick 2 r t) =
      [[1, 2], [4, 3]] ∧
    ¬(overallPick 2 1 0 < overallPick 2 1 1) ∧
    generateSnakeDraft
      [⟨1, "P1".data, "RB".data⟩, ⟨2, "P2".data, "RB".data⟩,
       ⟨3, "P3".data, "RB".data⟩, ⟨4, "P4".data, "RB".data⟩] 2 =
      [("Team 1", [some ⟨1, "P1".data, "RB".data⟩, some ⟨4, "P4".data, "RB".data⟩]),
       ("Team 2", [some ⟨2, "P2".data, "RB".data⟩, some ⟨3, "P3".data, "RB".data⟩])] :=
  ⟨by decide, by decide, by decide⟩

/-- Claim C3 (amended): the display formula assigns to the cell where the
player of zero-based input index i was placed the overall pick number i+1;
equivalently the overall pick numbers of occupied cells are exactly
1..playerCount, strictly increasing in placement order (round-major with
the serpentine direction inside each round: ascending physical columns on
even rounds, descending on odd rounds) — not in the plain
round-major/ascending-column traversal, which reverses on odd rounds. -/
theorem overall_pick_consistent (players : List Player) (n : Int) (i : Nat)
    (hp : players ≠ []) (hn : 1 ≤ n) (hi : i < players.length) :
    overallPick n.toNat (i / n.toNat) (teamSlot n.toNat i) = i + 1 ∧
    ((generateSnakeDraft players n).getD (teamSlot n.toNat i) ("", [])).2.getD
      (i / n.toNat) none = some (players.get ⟨i, hi⟩) ∧
    (List.range players.length).map
      (fun j => overallPick n.toNat (j / n.toNat) (teamSlot n.toNat j)) =
      (List.range players.length).map (fun j => j + 1) := by
  have hT : 0 < n.toNat := by omega
  refine ⟨overallPick_teamSlot _ _ hT, (board_cell_at players n i hp hn hi).2, ?_⟩
  apply List.map_congr_left
  intro j hj
  exact overallPick_teamSlot _ _ hT

theorem overall_pick_consistent_witness :
    overallPick (2 : Int).toNat (2 / (2 : Int).toNat) (teamSlot (2 : Int).toNat 2) =
      2 + 1 ∧
    ((generateSnakeDraft [⟨1, "A".data, "RB".data⟩, ⟨2, "B".data, "RB".data⟩,
        ⟨3, "C".data, "RB".data⟩] 2).getD (teamSlot (2 : Int).toNat 2) ("", [])).2.getD
      (2 / (2 : Int).toNat) none =
      some ([⟨1, "A".data, "RB".data⟩, ⟨2, "B".data, "RB".data⟩,
        ⟨3, "C".data, "RB".data⟩].get ⟨2, by decide⟩) ∧
    (List.range ([⟨1, "A".data, "RB".data⟩, ⟨2, "B".data, "RB".data⟩,
        ⟨3, "C".data, "RB".data⟩] : List Player).length).map
      (fun j => overallPick (2 : Int).toNat (j / (2 : Int).toNat)
        (teamSlot (2 : Int).toNat j)) =
      (List.range ([⟨1, "A".data, "RB".data⟩, ⟨2, "B".data, "RB".data⟩,
        ⟨3, "C".data, "RB".data⟩] : List Player).length).map (fun j => j + 1) :=
  overall_pick_consistent _ 2 2 (by decide) (by decide) (by decide)
